import Mathlib

/-!
Verification of the pathfinder HTTP request router.

This file gives a shallow embedding of the repository's data structures and
dispatch engine, and proves the frozen claims about them:

* `OMD` models `pathfinder.util.OrderedMultiDict`: the doubly linked list of
  nodes is represented as a Lean list in head-to-tail order and the auxiliary
  `_dict` mapping keys to node lists is represented as an association list.
  Nodes carry a numeric identity (`nid`) standing in for Python object
  identity, so that the pointer-unlink `_remove_node` is represented exactly
  (remove the one node with that identity).
* `CIOMD` models `pathfinder.util.CaseInsensitiveOrderedMultiDict`: the base
  structure plus the `_casemap` from folded key to the pair (list of distinct
  original-case variants in first-seen order, membership set of variants; the
  Python `set` is represented as a list used only for membership tests).
* `Response`, `Request`, `Finder` model the classes of `pathfinder/__init__.py`;
  regular expressions are abstracted as functions from a path to an optional
  match result (start, stop, groups, groupdict), which is all the dispatch
  code observes of them.
-/

/-- A node of the doubly linked list underlying `OrderedMultiDict`
(`_OMDNode` in util.py).  `nid` models Python object identity. -/
structure Node where
  nid : Nat
  key : String
  val : String
deriving DecidableEq

/-- Errors raised by the multimap operations: `KeyError` and `IndexError`. -/
inductive MapErr where
  | keyNotFound (k : String)
  | indexError
deriving DecidableEq

/-- Models `OrderedMultiDict`: `order` is the doubly linked list from `_head` to
`_tail`; `dict` is `self._dict` (key to its nodes in insertion order);
`dlen` is `self._len`; `nextId` is the identity supply for fresh nodes. -/
structure OMD where
  order : List Node
  dict : List (String × List Node)
  dlen : Nat
  nextId : Nat
deriving DecidableEq

/-- Association-list lookup, the behavior of a Python dict read. -/
def alFind {α : Type} : List (String × α) → String → Option α
  | [], _ => none
  | (k1, v) :: rest, k => if k1 = k then some v else alFind rest k

/-- Python dict write: overwrite in place, or append a new entry. -/
def alSet {α : Type} : List (String × α) → String → α → List (String × α)
  | [], k, v => [(k, v)]
  | (k1, v1) :: rest, k, v =>
    if k1 = k then (k1, v) :: rest else (k1, v1) :: alSet rest k v

/-- Models `del d[key]` / `d.pop(key)`: drop the entry. -/
def alRemove {α : Type} : List (String × α) → String → List (String × α)
  | [], _ => []
  | (k1, v1) :: rest, k => if k1 = k then rest else (k1, v1) :: alRemove rest k

abbrev dictFind (d : List (String × List Node)) (k : String) : Option (List Node) :=
  alFind d k

abbrev dictSetList (d : List (String × List Node)) (k : String) (ns : List Node) :
    List (String × List Node) :=
  alSet d k ns

abbrev dictRemove (d : List (String × List Node)) (k : String) :
    List (String × List Node) :=
  alRemove d k

/-- Models `self._dict[key].append(node)` on a `defaultdict(list)`: append to the
existing entry, or create a one-element entry. -/
def dictAppendNode : List (String × List Node) → String → Node → List (String × List Node)
  | [], k, n => [(k, [n])]
  | (k1, ns) :: rest, k, n =>
    if k1 = k then (k1, ns ++ [n]) :: rest else (k1, ns) :: dictAppendNode rest k n

def OMD.empty : OMD := ⟨[], [], 0, 0⟩

/-- Models `__setitem__`: append a fresh node at the tail of the global order,
append it to the key's node list, and bump `_len`. -/
def OMD.set (m : OMD) (k v : String) : OMD :=
  let n : Node := ⟨m.nextId, k, v⟩
  { order := m.order ++ [n]
    dict := dictAppendNode m.dict k n
    dlen := m.dlen + 1
    nextId := m.nextId + 1 }

/-- Models `__getitem__`: last value of the key's node list; `KeyError` if the key
is absent (`IndexError` would be raised on a stored empty list, which is
unreachable from the real operations). -/
def OMD.getE (m : OMD) (k : String) : Except MapErr String :=
  match dictFind m.dict k with
  | none => .error (.keyNotFound k)
  | some ns =>
    match ns.getLast? with
    | none => .error .indexError
    | some n => .ok n.val

/-- Remove the first (under the identity invariant: the only) node with the
given identity — the pointer relinking of `_remove_node`. -/
def eraseId : List Node → Nat → List Node
  | [], _ => []
  | n :: rest, i => if n.nid = i then rest else n :: eraseId rest i

/-- Models `_remove_node`: decrement `_len` and unlink the node from the list. -/
def OMD.removeNode (m : OMD) (n : Node) : OMD :=
  { m with dlen := m.dlen - 1, order := eraseId m.order n.nid }

/-- Models `_remove_last_item`: pop the last node off the key's node list, delete
the dict entry if that left it empty, then `_remove_node` the node.  Errors
model the `IndexError` of `list.pop()` on a missing or empty entry (both
unreachable through the public operations, which check presence first). -/
def OMD.removeLastItem (m : OMD) (k : String) : Except MapErr (String × OMD) :=
  match dictFind m.dict k with
  | none => .error .indexError
  | some ns =>
    match ns.getLast? with
    | none => .error .indexError
    | some n =>
      let rest := ns.dropLast
      let d := if rest.isEmpty then dictRemove m.dict k else dictSetList m.dict k rest
      .ok (n.val, OMD.removeNode { m with dict := d } n)

/-- Models `__delitem__`: `KeyError` when the key is absent, else remove the last
value for the key. -/
def OMD.delE (m : OMD) (k : String) : Except MapErr OMD :=
  match dictFind m.dict k with
  | none => .error (.keyNotFound k)
  | some _ => (m.removeLastItem k).map (·.2)

/-- Models `pop(key)` without a default: `KeyError` when absent, else remove and
return the last value for the key. -/
def OMD.popE (m : OMD) (k : String) : Except MapErr (String × OMD) :=
  match dictFind m.dict k with
  | none => .error (.keyNotFound k)
  | some _ => m.removeLastItem k

/-- Models `popitem`: take the tail node's key and remove its last value; raises
`KeyError` when the structure is empty. -/
def OMD.popitemE (m : OMD) : Except MapErr (String × String × OMD) :=
  match m.order.getLast? with
  | none => .error (.keyNotFound "OrderedMultiDict is empty")
  | some t => (m.removeLastItem t.key).map fun p => (t.key, p.1, p.2)

/-- Models `popall`: pop the key's entry from the dict (empty result when absent),
then `_remove_node` each of its nodes in order, collecting the values. -/
def OMD.popall (m : OMD) (k : String) : List String × OMD :=
  match dictFind m.dict k with
  | none => ([], m)
  | some ns =>
    let m1 : OMD := { m with dict := dictRemove m.dict k }
    (ns.map (·.val), ns.foldl (fun acc n => acc.removeNode n) m1)

/-- Models `replace`: remove every value for the key, then set once. -/
def OMD.replace (m : OMD) (k v : String) : OMD :=
  ((m.popall k).2).set k v

/-- Models `clear`: reset the dict, list and counter (the identity supply is a
modelling artifact and is kept). -/
def OMD.clear (m : OMD) : OMD :=
  { order := [], dict := [], dlen := 0, nextId := m.nextId }

/-- Models `iteritems`/`items`: all key/value pairs in global order. -/
def OMD.items (m : OMD) : List (String × String) :=
  m.order.map fun n => (n.key, n.val)

/-- Models `getall`: the values for a key in insertion order (empty when absent). -/
def OMD.getall (m : OMD) (k : String) : List String :=
  ((dictFind m.dict k).getD []).map (·.val)

/-- Build a multimap by a sequence of `set` operations starting empty. -/
def OMD.build (ops : List (String × String)) : OMD :=
  ops.foldl (fun m p => m.set p.1 p.2) OMD.empty

/-- The value of the most recent `set` for key `k` in an operation list. -/
def lastVal (ops : List (String × String)) (k : String) : Option String :=
  ((ops.filter (fun p => p.1 == k)).map (·.2)).getLast?

/-- Python `str.lower()` (ASCII folding), written so that it reduces by
`rfl` on concrete strings. -/
def strLower (s : String) : String := ⟨s.data.map Char.toLower⟩

/-- Models `CaseInsensitiveOrderedMultiDict`: the base structure plus `_casemap`,
which maps a folded (lower-cased) key to the pair of the list of distinct
original-case variants in first-seen order and the membership set of those
variants (the Python `set` is represented as a list used for membership). -/
structure CIOMD where
  base : OMD
  casemap : List (String × (List String × List String))
deriving DecidableEq

def CIOMD.empty : CIOMD := ⟨OMD.empty, []⟩

/-- Models `CaseInsensitiveOrderedMultiDict.__setitem__`: delegate to the base set,
then record the exact-case key as a variant of its folded key if new.  The
`defaultdict` access materialises the casemap entry in every case. -/
def CIOMD.set (m : CIOMD) (k v : String) : CIOMD :=
  let b := m.base.set k v
  let e := (alFind m.casemap (strLower k)).getD ([], [])
  let e1 := if k ∈ e.2 then e else (e.1 ++ [k], e.2 ++ [k])
  ⟨b, alSet m.casemap (strLower k) e1⟩

/-- Models `CaseInsensitiveOrderedMultiDict.__getitem__`: resolve the folded key to
the most recently first-seen variant (`self._casemap[key][0][-1]`), then read
that exact key from the base structure. -/
def CIOMD.getE (m : CIOMD) (k : String) : Except MapErr String :=
  match alFind m.casemap (strLower k) with
  | none => .error (.keyNotFound (strLower k))
  | some e =>
    match e.1.getLast? with
    | none => .error .indexError
    | some k1 => m.base.getE k1

/-- Models `__contains__`: case-insensitive presence via the casemap. -/
def CIOMD.containsCI (m : CIOMD) (k : String) : Bool :=
  (alFind m.casemap (strLower k)).isSome

def CIOMD.items (m : CIOMD) : List (String × String) := m.base.items

/-- Models `CaseInsensitiveOrderedMultiDict.popall`: `self._casemap.pop(lower)`
raises `KeyError` when the folded key is absent (`defaultdict.pop` does not
invoke the factory); otherwise pop every variant from the base structure in
first-seen order, concatenating the results. -/
def CIOMD.popallE (m : CIOMD) (k : String) : Except MapErr (List String × CIOMD) :=
  match alFind m.casemap (strLower k) with
  | none => .error (.keyNotFound (strLower k))
  | some e =>
    let cm := alRemove m.casemap (strLower k)
    let r := e.1.foldl (fun acc k1 =>
      let p := acc.2.popall k1
      (acc.1 ++ p.1, p.2)) (([] : List String), m.base)
    .ok (r.1, ⟨r.2, cm⟩)

/-- Build a case-insensitive multimap by a sequence of `set` operations. -/
def CIOMD.build (ops : List (String × String)) : CIOMD :=
  ops.foldl (fun m p => m.set p.1 p.2) CIOMD.empty

/-- The class attribute `Response.default_content_type`. -/
def defaultContentType : String := "text/html"

/-- Models `Response`: content, status code, case-insensitive header multimap and
cookie jar (a `SimpleCookie` modelled as a name/value list). -/
structure Response where
  content : String
  code : Nat
  headers : CIOMD
  cookies : List (String × String)
deriving DecidableEq

/-- The `Response` constructor: the headers multimap is built by an update
over the supplied pairs; the cookie jar starts empty. -/
def Response.make (content : String) (code : Nat)
    (headers : List (String × String)) : Response :=
  ⟨content, code, CIOMD.build headers, []⟩

/-- Models `m.output(header='')[1:]` of a plain name/value `SimpleCookie` morsel. -/
def cookieOutput (c : String × String) : String := c.1 ++ "=" ++ c.2

/-- Models `Response.finalize`: append one Set-Cookie header per cookie (an
unguarded multimap update), then stamp the default content type only when no
content-type header is present, checked case-insensitively. -/
def Response.finalize (r : Response) : Response :=
  let hs := r.cookies.foldl (fun h c => h.set "Set-Cookie" (cookieOutput c)) r.headers
  let hs1 := if defaultContentType ≠ "" ∧ ¬ (hs.containsCI "content-type")
    then hs.set "Content-Type" defaultContentType else hs
  { r with headers := hs1 }

/-- The part of a `Request` that dispatch observes: the (already upper-cased)
method and the path. -/
structure Request where
  method : String
  path : String

/-- What the dispatch code observes of a regex match object: `start()`,
`end()`, `groups()` and `groupdict()`. -/
structure MatchRes where
  start : Nat
  stop : Nat
  groups : List String
  groupdict : List (String × String)

/-- A compiled pattern, abstracted as its matching function (`regex.match`). -/
abbrev Pattern := String → Option MatchRes

/-- A handler's behaviour when called with `(request, *args, **kwargs)`:
return a byte string, a unicode string, a `Response`, a value of any other
type, or raise. -/
inductive HandlerOut where
  | str (s : String)
  | uni (u : String)
  | resp (r : Response)
  | other
  | raise (e : String)

abbrev HandlerFn := Request → List String → List (String × String) → HandlerOut

/-- What an overridable 404/500 hook does: return a `Response`, return the
`NoResponse` sentinel, return any non-`Response` value, or raise. -/
inductive HookOut where
  | resp (r : Response)
  | noResponse
  | notResponse
  | raise (e : String)

mutual
/-- Models `Finder`: the per-method route table `self._map` (keyed by lower-cased
method) plus the instance's 404 and 500 hooks. -/
inductive Finder where
  | mk (rmap : List (String × List Route)) (on404 : Request → HookOut)
      (on500 : Request → String → HookOut)
/-- One `(regex, handler)` pair of a candidate list. -/
inductive Route where
  | mk (pat : Pattern) (target : Target)
/-- A route target: a handler function or a nested `Finder`. -/
inductive Target where
  | handler (h : HandlerFn)
  | finder (f : Finder)
end

def Finder.rmap : Finder → List (String × List Route)
  | .mk m _ _ => m

def Finder.on404 : Finder → Request → HookOut
  | .mk _ h _ => h

def Finder.on500 : Finder → Request → String → HookOut
  | .mk _ _ h => h

def Route.pat : Route → Pattern
  | .mk p _ => p

def Route.target : Route → Target
  | .mk _ t => t

/-- The outcome of dispatch: a `Response`, the `NoResponse` sentinel, or an
exception escaping `_handle`. -/
inductive Dout where
  | resp (r : Response)
  | noResponse
  | exc (e : String)
deriving DecidableEq

/-- Models `self._map.get(method.lower(), ())`. -/
def lookupRmap : List (String × List Route) → String → List Route
  | [], _ => []
  | (k, rs) :: rest, meth => if k = meth then rs else lookupRmap rest meth

/-- One iteration of the `_resolve` loop at a single route: on a match,
a nested `Finder` target yields `path[:match.start()] + path[match.end():]`
as the remainder, and a handler target yields the captured groups (named
groups suppress positional ones). -/
def routeHit (r : Route) (path : String) :
    Option (Target × List String × List (String × String) × String) :=
  match r.pat path with
  | none => none
  | some mr =>
    match r.target with
    | .finder f => some (.finder f, [], [], path.take mr.start ++ path.drop mr.stop)
    | .handler h =>
      let kwargs := mr.groupdict
      let args := if kwargs.isEmpty then mr.groups else []
      some (.handler h, args, kwargs, "")

/-- The `_resolve` scan over one method's candidate list, first match wins. -/
def scanRoutes : List Route → String →
    Option (Target × List String × List (String × String) × String)
  | [], _ => none
  | r :: rest, path =>
    match routeHit r path with
    | some res => some res
    | none => scanRoutes rest path

/-- Models `Finder._resolve` (`None` result modelled as `none`). -/
def Finder.resolve (fi : Finder) (method path : String) :
    Option (Target × List String × List (String × String) × String) :=
  scanRoutes (lookupRmap fi.rmap (strLower method)) path

/-- The default `Finder.on_404`. -/
def defaultOn404 : Request → HookOut :=
  fun _ => .resp (Response.make "" 404 [("Content-Length", "0")])

/-- The default `Finder.on_500`. -/
def defaultOn500 : Request → String → HookOut :=
  fun _ _ => .resp (Response.make "" 500 [("Content-Length", "0")])

/-- Models `Finder._on_500`: call the instance's 500 hook; if it raises, the source
falls back to `Finder.on_500(request, triple)`, an unbound-method call whose
first argument is a `Request`, which itself raises `TypeError` in Python 2 —
so that branch propagates an exception instead of producing a response.  A
non-`Response` return falls back to the built-in "Server Error" response. -/
def on500run (fi : Finder) (req : Request) (e : String) : Dout :=
  match fi.on500 req e with
  | .raise _ =>
    .exc "TypeError: unbound method on_500() must be called with Finder instance"
  | .resp r => .resp r
  | .noResponse => .noResponse
  | .notResponse =>
    .resp (Response.make "Server Error" 500
      [("Content-Length", "12"), ("Content-Type", "text/plain")])

/-- Models `Finder._on_404`: call the instance's 404 hook; if it raises, route the
secondary fault to `_on_500`.  On a non-`Response` return, the source builds
its fallback with the headers expression
`[('Content-Length', '9')('Content-Type', 'text/plain')]` — a missing comma
makes this apply a tuple to arguments, raising `TypeError` before the
fallback `Response` is constructed, so that branch propagates an exception. -/
def on404run (fi : Finder) (req : Request) : Dout :=
  match fi.on404 req with
  | .raise e => on500run fi req e
  | .resp r => .resp r
  | .noResponse => .noResponse
  | .notResponse => .exc "TypeError: tuple object is not callable"

/-- The return-value coercion tail of `Finder._handle` once a plain handler
has been invoked: byte strings become 200 responses with a content length;
unicode strings are encoded by `enc` (the `.encode('utf8')` step), a failure
being routed to the 500 path; a `Response` passes through; anything else is
a type-mismatch fault routed to the 500 path. -/
def runHandler (enc : String → Option String) (fi : Finder) (req : Request)
    (h : HandlerFn) (args : List String) (kwargs : List (String × String)) : Dout :=
  match h req args kwargs with
  | .raise e => on500run fi req e
  | .str s =>
    .resp (Response.make s 200 [("Content-Length", toString s.length)])
  | .uni u =>
    match enc u with
    | none => on500run fi req "UnicodeEncodeError"
    | some s =>
      .resp (Response.make s 200
        [("Content-Length", toString s.length), ("Content-Encoding", "UTF-8")])
  | .resp r => .resp r
  | .other => on500run fi req "TypeError: expected a Response"

mutual
def Finder.fsize : Finder → Nat
  | .mk rmap _ _ => 1 + rmapSize rmap

def rmapSize : List (String × List Route) → Nat
  | [] => 0
  | (_, rs) :: rest => routesSize rs + rmapSize rest

def routesSize : List Route → Nat
  | [] => 0
  | r :: rest => routeSize r + routesSize rest

def routeSize : Route → Nat
  | .mk _ t => targetSize t

def targetSize : Target → Nat
  | .handler _ => 0
  | .finder f => 1 + Finder.fsize f
end

theorem lookupRmap_size (rmap : List (String × List Route)) (meth : String) :
    routesSize (lookupRmap rmap meth) ≤ rmapSize rmap := by
  induction rmap with
  | nil => simp [lookupRmap, routesSize]
  | cons p rest ih =>
    obtain ⟨k, rs⟩ := p
    simp only [lookupRmap, rmapSize]
    by_cases h : k = meth
    · simp [h]
    · simp only [h, if_false]
      omega

theorem scanRoutes_finder_size {rs : List Route} {path : String} {f : Finder}
    {args : List String} {kwargs : List (String × String)} {rem : String}
    (h : scanRoutes rs path = some (.finder f, args, kwargs, rem)) :
    Finder.fsize f < routesSize rs := by
  induction rs with
  | nil => simp [scanRoutes] at h
  | cons r rest ih =>
    simp only [scanRoutes] at h
    cases hr : routeHit r path with
    | none =>
      rw [hr] at h
      have hlt := ih h
      have hcons : routesSize (r :: rest) = routeSize r + routesSize rest := rfl
      omega
    | some res =>
      rw [hr] at h
      cases h
      unfold routeHit at hr
      cases hp : r.pat path with
      | none => rw [hp] at hr; cases hr
      | some mr =>
        rw [hp] at hr
        cases ht : r.target with
        | handler hh => rw [ht] at hr; simp at hr
        | finder f1 =>
          rw [ht] at hr
          simp only [Option.some.injEq, Prod.mk.injEq] at hr
          obtain ⟨hf, -⟩ := hr
          cases hf
          have hcons : routesSize (r :: rest) = routeSize r + routesSize rest := rfl
          have hrt : routeSize r = targetSize r.target := by
            cases r with | mk p t => rfl
          rw [ht] at hrt
          have hts : targetSize (Target.finder f) = 1 + Finder.fsize f := rfl
          omega

/-- Models `Finder._handle`: resolve; on a miss run the 404 machinery; on a nested
`Finder` recurse on the remainder; on a handler invoke it and coerce the
result.  `enc` is the UTF-8 encoding step used for unicode return values. -/
def Finder.handle (enc : String → Option String) (fi : Finder) (path : String)
    (req : Request) : Dout :=
  match hres : fi.resolve req.method path with
  | none => on404run fi req
  | some (.finder f, _, _, rem) => Finder.handle enc f rem req
  | some (.handler h, args, kwargs, _) => runHandler enc fi req h args kwargs
termination_by fi.fsize
decreasing_by
  have h1 := scanRoutes_finder_size hres
  have h2 := lookupRmap_size fi.rmap (strLower req.method)
  cases fi with
  | mk rmap o4 o5 => simp only [Finder.fsize, Finder.rmap] at h1 h2 ⊢; omega

theorem handle_resolve_none (enc : String → Option String) (fi : Finder)
    (path : String) (req : Request)
    (h : fi.resolve req.method path = none) :
    Finder.handle enc fi path req = on404run fi req := by
  rw [Finder.handle.eq_def]
  split <;> simp_all

theorem handle_resolve_finder (enc : String → Option String) (fi : Finder)
    (path : String) (req : Request) (f : Finder) (args : List String)
    (kwargs : List (String × String)) (rem : String)
    (h : fi.resolve req.method path = some (.finder f, args, kwargs, rem)) :
    Finder.handle enc fi path req = Finder.handle enc f rem req := by
  rw [Finder.handle.eq_def]
  split <;> simp_all

theorem handle_resolve_handler (enc : String → Option String) (fi : Finder)
    (path : String) (req : Request) (hd : HandlerFn) (args : List String)
    (kwargs : List (String × String)) (rem : String)
    (h : fi.resolve req.method path = some (.handler hd, args, kwargs, rem)) :
    Finder.handle enc fi path req = runHandler enc fi req hd args kwargs := by
  rw [Finder.handle.eq_def]
  split <;> simp_all

/-! ### Association list lemmas -/

theorem alFind_alSet_self {α : Type} (d : List (String × α)) (k : String) (v : α) :
    alFind (alSet d k v) k = some v := by
  induction d with
  | nil => simp [alSet, alFind]
  | cons p rest ih =>
    obtain ⟨k1, v1⟩ := p
    by_cases h : k1 = k <;> simp [alSet, alFind, h, ih]

theorem alFind_alSet_ne {α : Type} (d : List (String × α)) (k k1 : String) (v : α)
    (h : k1 ≠ k) : alFind (alSet d k v) k1 = alFind d k1 := by
  have hks : ¬ (k = k1) := fun hh => h hh.symm
  induction d with
  | nil => simp [alSet, alFind, hks]
  | cons p rest ih =>
    obtain ⟨k2, v2⟩ := p
    by_cases h2 : k2 = k
    · subst h2
      simp [alSet, alFind, hks]
    · by_cases h3 : k2 = k1 <;> simp [alSet, alFind, h2, h3, h, ih]

theorem alFind_eq_none_iff {α : Type} (d : List (String × α)) (k : String) :
    alFind d k = none ↔ k ∉ d.map Prod.fst := by
  induction d with
  | nil => simp [alFind]
  | cons p rest ih =>
    obtain ⟨k1, v1⟩ := p
    by_cases h : k1 = k
    · simp [alFind, h]
    · have : ¬ (k = k1) := fun hh => h hh.symm
      simp [alFind, h, ih, this]

theorem alFind_mem_keys {α : Type} {d : List (String × α)} {k : String} {v : α}
    (h : alFind d k = some v) : k ∈ d.map Prod.fst := by
  by_contra hk
  rw [← alFind_eq_none_iff] at hk
  rw [h] at hk
  cases hk

theorem alSet_keys_of_mem {α : Type} (d : List (String × α)) (k : String) (v : α)
    (h : k ∈ d.map Prod.fst) : (alSet d k v).map Prod.fst = d.map Prod.fst := by
  induction d with
  | nil => simp at h
  | cons p rest ih =>
    obtain ⟨k1, v1⟩ := p
    by_cases h1 : k1 = k
    · simp [alSet, h1]
    · simp only [List.map_cons, List.mem_cons] at h
      rcases h with h | h
      · exact absurd h.symm h1
      · simp [alSet, h1, ih h]

theorem alSet_keys_of_not_mem {α : Type} (d : List (String × α)) (k : String) (v : α)
    (h : k ∉ d.map Prod.fst) : (alSet d k v).map Prod.fst = d.map Prod.fst ++ [k] := by
  induction d with
  | nil => simp [alSet]
  | cons p rest ih =>
    obtain ⟨k1, v1⟩ := p
    simp only [List.map_cons, List.mem_cons] at h
    push_neg at h
    have h1 : ¬ (k1 = k) := fun hh => h.1 hh.symm
    simp [alSet, h1, ih h.2]

theorem alRemove_keys_sublist {α : Type} (d : List (String × α)) (k : String) :
    ((alRemove d k).map Prod.fst).Sublist (d.map Prod.fst) := by
  induction d with
  | nil => simp [alRemove]
  | cons p rest ih =>
    obtain ⟨k1, v1⟩ := p
    by_cases h : k1 = k
    · simp only [alRemove, h, if_true, List.map_cons]
      exact List.sublist_cons_self _ _
    · simp only [alRemove, h, if_false, List.map_cons]
      exact ih.cons₂ _

theorem alFind_alRemove_self {α : Type} (d : List (String × α)) (k : String)
    (hnd : (d.map Prod.fst).Nodup) : alFind (alRemove d k) k = none := by
  induction d with
  | nil => simp [alRemove, alFind]
  | cons p rest ih =>
    obtain ⟨k1, v1⟩ := p
    simp only [List.map_cons, List.nodup_cons] at hnd
    by_cases h : k1 = k
    · subst h
      simp only [alRemove, if_true]
      rw [alFind_eq_none_iff]
      exact hnd.1
    · simp [alRemove, alFind, h, ih hnd.2]

theorem alFind_alRemove_ne {α : Type} (d : List (String × α)) (k k1 : String)
    (h : k1 ≠ k) : alFind (alRemove d k) k1 = alFind d k1 := by
  have hks : ¬ (k = k1) := fun hh => h hh.symm
  induction d with
  | nil => simp [alRemove]
  | cons p rest ih =>
    obtain ⟨k2, v2⟩ := p
    by_cases h2 : k2 = k
    · subst h2
      simp [alRemove, alFind, hks]
    · by_cases h3 : k2 = k1 <;> simp [alRemove, alFind, h2, h3, h, ih]

theorem alRemove_of_not_mem {α : Type} (d : List (String × α)) (k : String)
    (h : k ∉ d.map Prod.fst) : alRemove d k = d := by
  induction d with
  | nil => rfl
  | cons p rest ih =>
    obtain ⟨k1, v1⟩ := p
    simp only [List.map_cons, List.mem_cons] at h
    push_neg at h
    have h1 : ¬ (k1 = k) := fun hh => h.1 hh.symm
    simp [alRemove, h1, ih h.2]

theorem dictAppendNode_eq (d : List (String × List Node)) (k : String) (n : Node) :
    dictAppendNode d k n = alSet d k ((alFind d k).getD [] ++ [n]) := by
  induction d with
  | nil => simp [dictAppendNode, alSet, alFind]
  | cons p rest ih =>
    obtain ⟨k1, ns1⟩ := p
    by_cases h : k1 = k <;> simp [dictAppendNode, alSet, alFind, h, ih]

/-- Total size of the dict: the sum of the per-key node-list lengths. -/
def dictSizes (d : List (String × List Node)) : Nat :=
  (d.map (fun p => p.2.length)).sum

theorem dictSizes_alSet (d : List (String × List Node)) (k : String)
    (ns0 ns : List Node) (h : alFind d k = some ns0) :
    dictSizes (alSet d k ns) + ns0.length = dictSizes d + ns.length := by
  induction d with
  | nil => simp [alFind] at h
  | cons p rest ih =>
    obtain ⟨k1, ns1⟩ := p
    by_cases h1 : k1 = k
    · simp only [alFind, h1, if_true, Option.some.injEq] at h
      subst h
      simp [alSet, h1, dictSizes]
      omega
    · simp only [alFind, h1, if_false] at h
      simp only [alSet, h1, if_false, dictSizes, List.map_cons, List.sum_cons]
      have := ih h
      simp only [dictSizes] at this
      omega

theorem dictSizes_alSet_new (d : List (String × List Node)) (k : String)
    (ns : List Node) (h : alFind d k = none) :
    dictSizes (alSet d k ns) = dictSizes d + ns.length := by
  induction d with
  | nil => simp [alSet, dictSizes]
  | cons p rest ih =>
    obtain ⟨k1, ns1⟩ := p
    by_cases h1 : k1 = k
    · simp [alFind, h1] at h
    · simp only [alFind, h1, if_false] at h
      simp only [alSet, h1, if_false, dictSizes, List.map_cons, List.sum_cons]
      have := ih h
      simp only [dictSizes] at this
      omega

theorem dictSizes_alRemove (d : List (String × List Node)) (k : String)
    (ns0 : List Node) (h : alFind d k = some ns0) :
    dictSizes (alRemove d k) + ns0.length = dictSizes d := by
  induction d with
  | nil => simp [alFind] at h
  | cons p rest ih =>
    obtain ⟨k1, ns1⟩ := p
    by_cases h1 : k1 = k
    · simp only [alFind, h1, if_true, Option.some.injEq] at h
      subst h
      simp [alRemove, h1, dictSizes]
      omega
    · simp only [alFind, h1, if_false] at h
      simp only [alRemove, h1, if_false, dictSizes, List.map_cons, List.sum_cons]
      have := ih h
      simp only [dictSizes] at this
      omega

/-- The nodes with a given key, in global order (what `_dict[k]` mirrors). -/
def keyNodes (k : String) (ns : List Node) : List Node :=
  ns.filter (fun n => n.key == k)

theorem keyNodes_append (k : String) (l1 l2 : List Node) :
    keyNodes k (l1 ++ l2) = keyNodes k l1 ++ keyNodes k l2 := by
  simp [keyNodes]

/-- Well-formedness of an `OMD` state, satisfied by every state reachable
through the modelled operations: the counter matches both representations,
node identities are fresh and distinct, dict keys are distinct, and the dict
is the per-key mirror of the global order. -/
structure OMD.WF (m : OMD) : Prop where
  len_order : m.dlen = m.order.length
  len_dict : m.dlen = dictSizes m.dict
  ids_lt : ∀ n ∈ m.order, n.nid < m.nextId
  ids_nodup : (m.order.map Node.nid).Nodup
  keys_nodup : (m.dict.map Prod.fst).Nodup
  dict_char : ∀ k, dictFind m.dict k =
    if keyNodes k m.order = [] then none else some (keyNodes k m.order)

theorem OMD.WF.empty : OMD.empty.WF := by
  constructor <;> simp [OMD.empty, dictSizes, keyNodes, alFind, dictFind]

theorem OMD.WF.set (m : OMD) (hw : m.WF) (k v : String) : (m.set k v).WF := by
  obtain ⟨h1, h2, h3, h4, h5, h6⟩ := hw
  have hfind := h6 k
  constructor
  · simp [OMD.set, h1]
  · simp only [OMD.set, dictAppendNode_eq]
    cases hdk : alFind m.dict k with
    | none =>
      rw [dictSizes_alSet_new m.dict k _ hdk]
      simp [h2]
    | some ns0 =>
      have := dictSizes_alSet m.dict k ns0 (ns0 ++ [⟨m.nextId, k, v⟩]) hdk
      simp only [hdk, Option.getD_some] at this ⊢
      simp only [List.length_append, List.length_cons, List.length_nil] at this
      omega
  · intro n hn
    simp only [OMD.set, List.mem_append, List.mem_cons] at hn
    rcases hn with hn | hn
    · exact Nat.lt_succ_of_lt (h3 n hn)
    · simp only [List.not_mem_nil, or_false] at hn
      subst hn
      exact Nat.lt_succ_self _
  · simp only [OMD.set, List.map_append, List.map_cons, List.map_nil]
    rw [List.nodup_append]
    refine ⟨h4, List.nodup_singleton _, ?_⟩
    intro a ha hb
    simp only [List.mem_singleton] at hb
    subst hb
    simp only [List.mem_map] at ha
    obtain ⟨n, hn, hna⟩ := ha
    have := h3 n hn
    omega
  · simp only [OMD.set, dictAppendNode_eq]
    cases hdk : alFind m.dict k with
    | none =>
      rw [alSet_keys_of_not_mem _ _ _ ((alFind_eq_none_iff _ _).mp hdk)]
      rw [List.nodup_append]
      refine ⟨h5, List.nodup_singleton _, ?_⟩
      intro a ha hb
      simp only [List.mem_singleton] at hb
      subst hb
      exact (alFind_eq_none_iff _ _).mp hdk ha
    | some ns0 =>
      rw [alSet_keys_of_mem _ _ _ (alFind_mem_keys hdk)]
      exact h5
  · intro k1
    have hchar := h6 k1
    by_cases hk : k1 = k
    · subst hk
      simp only [OMD.set, dictAppendNode_eq, dictFind] at hchar ⊢
      rw [alFind_alSet_self]
      rw [keyNodes_append]
      have hsingle : keyNodes k1 [⟨m.nextId, k1, v⟩] = [⟨m.nextId, k1, v⟩] := by
        simp [keyNodes]
      rw [hsingle]
      by_cases hkn : keyNodes k1 m.order = []
      · rw [hkn] at hchar ⊢
        rw [if_pos rfl] at hchar
        simp [hchar]
      · rw [if_neg hkn] at hchar
        have hne : keyNodes k1 m.order ++ [(⟨m.nextId, k1, v⟩ : Node)] ≠ [] := by
          simp
        rw [if_neg hne]
        simp [hchar]
    · simp only [OMD.set, dictAppendNode_eq, dictFind]
      rw [alFind_alSet_ne _ _ _ _ hk]
      rw [keyNodes_append]
      have hsingle : keyNodes k1 [⟨m.nextId, k, v⟩] = [] := by
        simp only [keyNodes, List.filter]
        have : ((⟨m.nextId, k, v⟩ : Node).key == k1) = false := by
          simp only [Node.key]
          exact beq_false_of_ne (fun hh => hk hh.symm)
        simp [this]
      rw [hsingle, List.append_nil]
      exact h6 k1

theorem getLast?_cons_of_ne_nil {α : Type} (a : α) (l : List α) (h : l ≠ []) :
    (a :: l).getLast? = l.getLast? := by
  cases l with
  | nil => exact absurd rfl h
  | cons b t => simp [List.getLast?_cons_cons]

theorem getLast?_map {α β : Type} (f : α → β) (l : List α) :
    (l.map f).getLast? = l.getLast?.map f := by
  induction l with
  | nil => rfl
  | cons a t ih =>
    cases t with
    | nil => rfl
    | cons b t2 => simpa [List.getLast?_cons_cons] using ih

theorem length_filter_partition {α : Type} (p : α → Bool) (l : List α) :
    (l.filter p).length + (l.filter (fun a => !(p a))).length = l.length := by
  induction l with
  | nil => rfl
  | cons a t ih => by_cases h : p a <;> simp [List.filter_cons, h] <;> omega

theorem mem_keyNodes_key {k : String} {n : Node} {order : List Node}
    (h : n ∈ keyNodes k order) : n.key = k := by
  simp only [keyNodes, List.mem_filter] at h
  exact eq_of_beq h.2

theorem keyNodes_cons (k : String) (h : Node) (t : List Node) :
    keyNodes k (h :: t) =
      if h.key == k then h :: keyNodes k t else keyNodes k t := by
  simp [keyNodes, List.filter_cons]

/-- Decomposition at the most recent node for a key: the global order splits
as `xs ++ n :: ys` with no key-`k` node in `ys`, and unlinking `n` leaves
exactly `xs ++ ys`. -/
theorem keyNodes_last_decomp (order : List Node) (k : String) (n : Node)
    (hnd : (order.map Node.nid).Nodup)
    (hlast : (keyNodes k order).getLast? = some n) :
    ∃ xs ys, order = xs ++ n :: ys ∧ keyNodes k ys = [] ∧
      eraseId order n.nid = xs ++ ys := by
  induction order with
  | nil => simp [keyNodes] at hlast
  | cons h t ih =>
    simp only [List.map_cons, List.nodup_cons] at hnd
    rw [keyNodes_cons] at hlast
    by_cases hk : h.key == k
    · rw [if_pos hk] at hlast
      by_cases hkt : keyNodes k t = []
      · rw [hkt] at hlast
        simp only [List.getLast?_singleton, Option.some.injEq] at hlast
        subst hlast
        refine ⟨[], t, by simp, hkt, ?_⟩
        simp [eraseId]
      · rw [getLast?_cons_of_ne_nil _ _ hkt] at hlast
        obtain ⟨xs, ys, hdec, hys, herase⟩ := ih hnd.2 hlast
        have hmem : n ∈ t := by rw [hdec]; simp
        have hne : h.nid ≠ n.nid := by
          intro heq
          exact hnd.1 (heq ▸ List.mem_map_of_mem Node.nid hmem)
        refine ⟨h :: xs, ys, by simp [hdec], hys, ?_⟩
        simp only [eraseId, hne, if_false, herase, List.cons_append]
    · rw [if_neg hk] at hlast
      obtain ⟨xs, ys, hdec, hys, herase⟩ := ih hnd.2 hlast
      have hmem : n ∈ t := by rw [hdec]; simp
      have hne : h.nid ≠ n.nid := by
        intro heq
        exact hnd.1 (heq ▸ List.mem_map_of_mem Node.nid hmem)
      refine ⟨h :: xs, ys, by simp [hdec], hys, ?_⟩
      simp only [eraseId, hne, if_false, herase, List.cons_append]

theorem mem_of_getLast? {α : Type} : ∀ {l : List α} {a : α},
    l.getLast? = some a → a ∈ l
  | [], a, h => by cases h
  | b :: t, a, h => by
    cases ht : t with
    | nil =>
      subst ht
      simp only [List.getLast?_singleton, Option.some.injEq] at h
      simp [h]
    | cons c t2 =>
      subst ht
      rw [getLast?_cons_of_ne_nil _ _ (by simp)] at h
      exact List.mem_cons_of_mem _ (mem_of_getLast? h)

theorem OMD.removeLastItem_spec (m : OMD) (k : String) (hw : m.WF)
    (hne : keyNodes k m.order ≠ []) :
    ∃ n m2, (keyNodes k m.order).getLast? = some n ∧ n.key = k ∧
      m.removeLastItem k = .ok (n.val, m2) ∧ m2.WF ∧
      (∃ xs ys, m.order = xs ++ n :: ys ∧ keyNodes k ys = [] ∧ m2.order = xs ++ ys) ∧
      m2.dlen = m.dlen - 1 ∧ m2.nextId = m.nextId ∧
      keyNodes k m2.order = (keyNodes k m.order).dropLast ∧
      (∀ k1, ¬ (k1 = k) → keyNodes k1 m2.order = keyNodes k1 m.order) := by
  obtain ⟨h1, h2, h3, h4, h5, h6⟩ := hw
  have hfind : dictFind m.dict k = some (keyNodes k m.order) := by
    rw [h6 k, if_neg hne]
  cases hlast : (keyNodes k m.order).getLast? with
  | none => exact absurd (List.getLast?_eq_none_iff.mp hlast) hne
  | some n =>
  have hmem := mem_of_getLast? hlast
  have hkey : n.key = k := mem_keyNodes_key hmem
  obtain ⟨xs, ys, hdec, hys, herase⟩ := keyNodes_last_decomp m.order k n h4 hlast
  have hkeq : (n.key == k) = true := beq_iff_eq.mpr hkey
  have hnsform : keyNodes k m.order = keyNodes k xs ++ [n] := by
    rw [hdec, keyNodes_append, keyNodes_cons, if_pos hkeq, hys]
  have hrest : (keyNodes k m.order).dropLast = keyNodes k xs := by
    rw [hnsform]
    exact List.dropLast_concat
  have hm2order : keyNodes k (xs ++ ys) = (keyNodes k m.order).dropLast := by
    rw [keyNodes_append, hys, hrest, List.append_nil]
  have hm2other : ∀ k1, ¬ (k1 = k) → keyNodes k1 (xs ++ ys) = keyNodes k1 m.order := by
    intro k1 hk1
    have hnf : (n.key == k1) = false := by
      rw [hkey]
      exact beq_false_of_ne (fun hh => hk1 hh.symm)
    rw [hdec, keyNodes_append, keyNodes_append, keyNodes_cons, if_neg (by simp [hnf])]
  have hlen : m.order.length = xs.length + ys.length + 1 := by
    have := congrArg List.length hdec
    simp at this
    omega
  have hsub : (xs ++ ys).Sublist m.order := by
    rw [hdec]
    exact ((List.sublist_cons_self n ys).append_left xs)
  refine ⟨n, (⟨xs ++ ys,
      if (keyNodes k m.order).dropLast.isEmpty
        then dictRemove m.dict k
        else dictSetList m.dict k ((keyNodes k m.order).dropLast),
      m.dlen - 1, m.nextId⟩ : OMD), rfl, hkey, ?_, ?_,
    ⟨xs, ys, hdec, hys, rfl⟩, rfl, rfl, hm2order, fun k1 hk1 => hm2other k1 hk1⟩
  · simp only [OMD.removeLastItem, hfind, hlast, OMD.removeNode, herase]
  · constructor
    · show m.dlen - 1 = (xs ++ ys).length
      have hxy : (xs ++ ys).length = xs.length + ys.length := List.length_append xs ys
      omega
    · by_cases hemp : (keyNodes k m.order).dropLast.isEmpty
      · show m.dlen - 1 = dictSizes (if (keyNodes k m.order).dropLast.isEmpty
          then dictRemove m.dict k
          else dictSetList m.dict k ((keyNodes k m.order).dropLast))
        rw [if_pos hemp]
        have hrl : (keyNodes k m.order).length = 1 := by
          have hemp2 : (keyNodes k m.order).dropLast = [] := by
            simpa [List.isEmpty_iff] using hemp
          rw [hrest] at hemp2
          rw [hnsform, hemp2]
          rfl
        have hrem := dictSizes_alRemove m.dict k _ hfind
        rw [hrl] at hrem
        show m.dlen - 1 = dictSizes (alRemove m.dict k)
        omega
      · show m.dlen - 1 = dictSizes (if (keyNodes k m.order).dropLast.isEmpty
          then dictRemove m.dict k
          else dictSetList m.dict k ((keyNodes k m.order).dropLast))
        rw [if_neg hemp]
        have hset := dictSizes_alSet m.dict k _ ((keyNodes k m.order).dropLast) hfind
        have hdl : ((keyNodes k m.order).dropLast).length + 1
            = (keyNodes k m.order).length := by
          rw [hnsform]
          simp
        have hpos : 1 ≤ (keyNodes k m.order).length := by
          cases hkn : keyNodes k m.order with
          | nil => exact absurd hkn hne
          | cons a t => simp
        show m.dlen - 1 = dictSizes (alSet m.dict k ((keyNodes k m.order).dropLast))
        omega
    · intro n1 hn1
      exact h3 n1 (hsub.mem hn1)
    · exact h4.sublist (hsub.map Node.nid)
    · by_cases hemp : (keyNodes k m.order).dropLast.isEmpty
      · rw [if_pos hemp]
        exact h5.sublist (alRemove_keys_sublist m.dict k)
      · rw [if_neg hemp]
        rw [alSet_keys_of_mem _ _ _ (alFind_mem_keys hfind)]
        exact h5
    · intro k1
      by_cases hk1 : k1 = k
      · subst hk1
        simp only []
        rw [hm2order]
        by_cases hemp : (keyNodes k1 m.order).dropLast.isEmpty
        · rw [if_pos hemp]
          have hemp2 : (keyNodes k1 m.order).dropLast = [] := by
            simpa [List.isEmpty_iff] using hemp
          rw [hemp2, if_pos rfl, dictFind]
          exact alFind_alRemove_self m.dict k1 h5
        · rw [if_neg hemp]
          have hemp2 : (keyNodes k1 m.order).dropLast ≠ [] := by
            simpa [List.isEmpty_iff] using hemp
          rw [if_neg hemp2, dictFind, dictSetList]
          exact alFind_alSet_self m.dict k1 _
      · simp only []
        rw [hm2other k1 hk1]
        have hstep : dictFind (if (keyNodes k m.order).dropLast.isEmpty
            then dictRemove m.dict k
            else dictSetList m.dict k ((keyNodes k m.order).dropLast)) k1
            = dictFind m.dict k1 := by
          by_cases hemp : (keyNodes k m.order).dropLast.isEmpty
          · rw [if_pos hemp]
            exact alFind_alRemove_ne m.dict k k1 hk1
          · rw [if_neg hemp]
            exact alFind_alSet_ne m.dict k k1 _ hk1
        rw [hstep]
        exact h6 k1

theorem foldl_removeNode (ns : List Node) (m1 : OMD) :
    ns.foldl (fun acc n => acc.removeNode n) m1 =
      { m1 with
        dlen := m1.dlen - ns.length
        order := ns.foldl (fun acc n => eraseId acc n.nid) m1.order } := by
  induction ns generalizing m1 with
  | nil => simp
  | cons n rest ih =>
    simp only [List.foldl_cons, List.length_cons]
    rw [ih]
    simp only [OMD.removeNode]
    congr 1
    omega

theorem foldl_eraseId_cons (ns : List Node) (h : Node) (t : List Node)
    (hne : ∀ n ∈ ns, n.nid ≠ h.nid) :
    ns.foldl (fun acc n => eraseId acc n.nid) (h :: t) =
      h :: ns.foldl (fun acc n => eraseId acc n.nid) t := by
  induction ns generalizing t with
  | nil => simp
  | cons n rest ih =>
    simp only [List.foldl_cons]
    have hn : h.nid ≠ n.nid := fun hh => (hne n (by simp)) hh.symm
    have : eraseId (h :: t) n.nid = h :: eraseId t n.nid := by
      simp [eraseId, hn]
    rw [this]
    exact ih _ (fun n1 hn1 => hne n1 (List.mem_cons_of_mem _ hn1))

/-- Removing every key-`k` node (in the order `popall` visits them) from the
global list is the same as filtering that key away. -/
theorem foldl_eraseId_keyNodes (order : List Node) (k : String)
    (hnd : (order.map Node.nid).Nodup) :
    (keyNodes k order).foldl (fun acc n => eraseId acc n.nid) order =
      order.filter (fun n => !(n.key == k)) := by
  induction order with
  | nil => simp [keyNodes]
  | cons h t ih =>
    simp only [List.map_cons, List.nodup_cons] at hnd
    rw [keyNodes_cons]
    by_cases hk : h.key == k
    · rw [if_pos hk]
      simp only [List.foldl_cons]
      have : eraseId (h :: t) h.nid = t := by simp [eraseId]
      rw [this]
      rw [ih hnd.2]
      simp [List.filter_cons, hk]
    · rw [if_neg hk]
      have hstep : (keyNodes k t).foldl (fun acc n => eraseId acc n.nid) (h :: t) =
          h :: (keyNodes k t).foldl (fun acc n => eraseId acc n.nid) t := by
        apply foldl_eraseId_cons
        intro n hn hnid
        have : n ∈ t := by
          simp only [keyNodes, List.mem_filter] at hn
          exact hn.1
        exact hnd.1 (hnid ▸ List.mem_map_of_mem Node.nid this)
      rw [hstep, ih hnd.2]
      simp only [List.filter_cons]
      have : (!(h.key == k)) = true := by simp [hk]
      rw [if_pos this]

theorem keyNodes_filter_not (k : String) (order : List Node) :
    keyNodes k (order.filter (fun n => !(n.key == k))) = [] := by
  induction order with
  | nil => rfl
  | cons h t ih =>
    by_cases hk : h.key = k <;>
      simp [List.filter_cons, keyNodes_cons, hk, ih]

theorem keyNodes_filter_not_ne (k k1 : String) (order : List Node)
    (h : ¬ (k1 = k)) :
    keyNodes k1 (order.filter (fun n => !(n.key == k))) = keyNodes k1 order := by
  induction order with
  | nil => rfl
  | cons hd t ih =>
    have hkk1 : ¬ (k = k1) := fun hh => h hh.symm
    by_cases hk : hd.key = k
    · have hk1 : ¬ (hd.key = k1) := by
        rw [hk]
        exact hkk1
      simp [List.filter_cons, keyNodes_cons, hk, hk1, ih, h, hkk1]
    · by_cases hk1 : hd.key = k1 <;>
        simp [List.filter_cons, keyNodes_cons, hk, hk1, ih, h, hkk1]

/-- Specification of `popall` on a present key: the values come back in
insertion order, the key's nodes leave the global list (order of the others
is untouched), and well-formedness is preserved. -/
theorem OMD.popall_spec (m : OMD) (k : String) (hw : m.WF)
    (hne : keyNodes k m.order ≠ []) :
    m.popall k = ((keyNodes k m.order).map (·.val),
      { order := m.order.filter (fun n => !(n.key == k)),
        dict := dictRemove m.dict k,
        dlen := m.dlen - (keyNodes k m.order).length,
        nextId := m.nextId }) ∧
    (m.popall k).2.WF := by
  obtain ⟨h1, h2, h3, h4, h5, h6⟩ := hw
  have hfind : dictFind m.dict k = some (keyNodes k m.order) := by
    rw [h6 k, if_neg hne]
  have hcomp : m.popall k = ((keyNodes k m.order).map (·.val),
      { order := m.order.filter (fun n => !(n.key == k)),
        dict := dictRemove m.dict k,
        dlen := m.dlen - (keyNodes k m.order).length,
        nextId := m.nextId }) := by
    simp only [OMD.popall, hfind]
    rw [foldl_removeNode]
    simp only [foldl_eraseId_keyNodes m.order k h4]
  refine ⟨hcomp, ?_⟩
  rw [hcomp]
  have hpart := length_filter_partition (fun n => n.key == k) m.order
  have hsub : (m.order.filter (fun n => !(n.key == k))).Sublist m.order :=
    List.filter_sublist m.order
  constructor
  · show m.dlen - (keyNodes k m.order).length
      = (m.order.filter (fun n => !(n.key == k))).length
    simp only [keyNodes] at *
    omega
  · show m.dlen - (keyNodes k m.order).length = dictSizes (alRemove m.dict k)
    have hrem := dictSizes_alRemove m.dict k _ hfind
    omega
  · intro n hn
    exact h3 n (hsub.mem hn)
  · exact h4.sublist (hsub.map Node.nid)
  · exact h5.sublist (alRemove_keys_sublist m.dict k)
  · intro k1
    by_cases hk1 : k1 = k
    · subst hk1
      show alFind (alRemove m.dict k1) k1 = _
      rw [alFind_alRemove_self m.dict k1 h5, keyNodes_filter_not]
      simp
    · show alFind (alRemove m.dict k) k1 = _
      rw [alFind_alRemove_ne m.dict k k1 hk1, keyNodes_filter_not_ne k k1 _ hk1]
      exact h6 k1

theorem OMD.WF.clear (m : OMD) : m.clear.WF := by
  constructor <;> simp [OMD.clear, dictSizes, keyNodes, alFind, dictFind]

theorem dictFind_some_keyNodes (m : OMD) (hw : m.WF) {k : String} {ns : List Node}
    (h : dictFind m.dict k = some ns) :
    keyNodes k m.order ≠ [] ∧ ns = keyNodes k m.order := by
  have hc := hw.dict_char k
  by_cases hne : keyNodes k m.order = []
  · rw [if_pos hne] at hc
    rw [h] at hc
    cases hc
  · rw [if_neg hne] at hc
    rw [h] at hc
    exact ⟨hne, Option.some.inj hc⟩

theorem OMD.WF.popallPres (m : OMD) (hw : m.WF) (k : String) : (m.popall k).2.WF := by
  by_cases hne : keyNodes k m.order = []
  · have hfind : dictFind m.dict k = none := by rw [hw.dict_char k, if_pos hne]
    have hid : m.popall k = ([], m) := by simp [OMD.popall, hfind]
    rw [hid]
    exact hw
  · exact (OMD.popall_spec m k hw hne).2

/-- The mutating operations of the ordered multimap. -/
inductive MOp where
  | mset (k v : String)
  | mdel (k : String)
  | mpop (k : String)
  | mpopitem
  | mpopall (k : String)
  | mreplace (k v : String)
  | mclear

/-- The state left by one operation; an operation that raises leaves the
state unchanged (the source checks presence before mutating). -/
def OMD.applyOp (m : OMD) : MOp → OMD
  | .mset k v => m.set k v
  | .mdel k =>
    match m.delE k with
    | .ok m2 => m2
    | .error _ => m
  | .mpop k =>
    match m.popE k with
    | .ok p => p.2
    | .error _ => m
  | .mpopitem =>
    match m.popitemE with
    | .ok p => p.2.2
    | .error _ => m
  | .mpopall k => (m.popall k).2
  | .mreplace k v => m.replace k v
  | .mclear => m.clear

theorem OMD.WF.applyOp (m : OMD) (hw : m.WF) (op : MOp) : (m.applyOp op).WF := by
  cases op with
  | mset k v => exact OMD.WF.set m hw k v
  | mdel k =>
    simp only [OMD.applyOp, OMD.delE]
    cases hfind : dictFind m.dict k with
    | none => exact hw
    | some ns =>
      obtain ⟨hne, -⟩ := dictFind_some_keyNodes m hw hfind
      obtain ⟨n, m2, -, -, hok, hw2, -⟩ := OMD.removeLastItem_spec m k hw hne
      simp [hok, Except.map, hw2]
  | mpop k =>
    simp only [OMD.applyOp, OMD.popE]
    cases hfind : dictFind m.dict k with
    | none => exact hw
    | some ns =>
      obtain ⟨hne, -⟩ := dictFind_some_keyNodes m hw hfind
      obtain ⟨n, m2, -, -, hok, hw2, -⟩ := OMD.removeLastItem_spec m k hw hne
      simp [hok, hw2]
  | mpopitem =>
    simp only [OMD.applyOp, OMD.popitemE]
    cases hlast : m.order.getLast? with
    | none => exact hw
    | some t =>
      have htmem : t ∈ m.order := mem_of_getLast? hlast
      have hne : keyNodes t.key m.order ≠ [] := by
        have : t ∈ keyNodes t.key m.order :=
          List.mem_filter.mpr ⟨htmem, by simp⟩
        exact List.ne_nil_of_mem this
      obtain ⟨n, m2, -, -, hok, hw2, -⟩ := OMD.removeLastItem_spec m t.key hw hne
      simp [hok, Except.map, hw2]
  | mpopall k => exact OMD.WF.popallPres m hw k
  | mreplace k v => exact OMD.WF.set _ (OMD.WF.popallPres m hw k) k v
  | mclear => exact OMD.WF.clear m

theorem foldl_set_items (ops : List (String × String)) (m : OMD) :
    (ops.foldl (fun m p => m.set p.1 p.2) m).items = m.items ++ ops := by
  induction ops generalizing m with
  | nil => simp
  | cons p rest ih =>
    simp only [List.foldl_cons]
    rw [ih]
    simp [OMD.items, OMD.set]

theorem OMD.build_items (ops : List (String × String)) :
    (OMD.build ops).items = ops := by
  have := foldl_set_items ops OMD.empty
  simpa [OMD.build, OMD.items, OMD.empty] using this

theorem foldl_set_WF (ops : List (String × String)) (m : OMD) (hw : m.WF) :
    (ops.foldl (fun m p => m.set p.1 p.2) m).WF := by
  induction ops generalizing m with
  | nil => exact hw
  | cons p rest ih => exact ih _ (OMD.WF.set m hw p.1 p.2)

theorem OMD.build_WF (ops : List (String × String)) : (OMD.build ops).WF :=
  foldl_set_WF ops OMD.empty OMD.WF.empty

/-- The values stored for a key, oldest first. -/
def omdVals (m : OMD) (k : String) : List String :=
  (keyNodes k m.order).map (·.val)

theorem OMD.getE_char (m : OMD) (hw : m.WF) (k : String) :
    m.getE k = match (omdVals m k).getLast? with
      | none => .error (.keyNotFound k)
      | some v => .ok v := by
  have hc := hw.dict_char k
  by_cases hne : keyNodes k m.order = []
  · rw [if_pos hne] at hc
    simp [OMD.getE, hc, omdVals, hne]
  · rw [if_neg hne] at hc
    simp only [OMD.getE, hc]
    cases hl : (keyNodes k m.order).getLast? with
    | none => exact absurd (List.getLast?_eq_none_iff.mp hl) hne
    | some n => simp [omdVals, getLast?_map, hl]

theorem omdVals_items (m : OMD) (k : String) :
    omdVals m k = (m.items.filter (fun p => p.1 == k)).map (·.2) := by
  simp only [omdVals, OMD.items, keyNodes]
  rw [List.filter_map]
  simp [Function.comp_def]

theorem dropLast_map_comm {α β : Type} (f : α → β) (l : List α) :
    l.dropLast.map f = (l.map f).dropLast := by
  induction l with
  | nil => rfl
  | cons a t ih =>
    cases t with
    | nil => rfl
    | cons b t2 => simpa using ih

theorem OMD.build_getE (ops : List (String × String)) (k : String) :
    (OMD.build ops).getE k = match lastVal ops k with
      | none => .error (.keyNotFound k)
      | some v => .ok v := by
  rw [OMD.getE_char _ (OMD.build_WF ops) k, omdVals_items, OMD.build_items]
  rfl

theorem OMD.build_delE_absent (ops : List (String × String)) (k : String)
    (h : lastVal ops k = none) :
    (OMD.build ops).delE k = .error (.keyNotFound k) := by
  have hvals : omdVals (OMD.build ops) k
      = (ops.filter (fun p => p.1 == k)).map (·.2) := by
    rw [omdVals_items, OMD.build_items]
  have hfilter : (ops.filter (fun p => p.1 == k)).map (·.2) = [] := by
    rw [← hvals]
    rw [lastVal] at h
    rw [← hvals] at h
    exact List.getLast?_eq_none_iff.mp h
  have hkn : keyNodes k (OMD.build ops).order = [] := by
    have h0 : omdVals (OMD.build ops) k = [] := hvals.trans hfilter
    exact List.map_eq_nil_iff.mp h0
  have hfind : dictFind (OMD.build ops).dict k = none := by
    rw [(OMD.build_WF ops).dict_char k, if_pos hkn]
  simp [OMD.delE, hfind]

theorem OMD.build_delE_spec (ops : List (String × String)) (k v : String)
    (h : lastVal ops k = some v) :
    ∃ m2 pre post, (OMD.build ops).delE k = .ok m2 ∧
      ops = pre ++ (k, v) :: post ∧
      post.filter (fun p => p.1 == k) = [] ∧
      m2.items = pre ++ post ∧
      m2.getE k =
        (match ((ops.filter (fun p => p.1 == k)).map (·.2)).dropLast.getLast? with
          | none => Except.error (.keyNotFound k)
          | some w => .ok w) := by
  have hw := OMD.build_WF ops
  have hvals : omdVals (OMD.build ops) k
      = (ops.filter (fun p => p.1 == k)).map (·.2) := by
    rw [omdVals_items, OMD.build_items]
  have hne : keyNodes k (OMD.build ops).order ≠ [] := by
    intro hnil
    have h0 : omdVals (OMD.build ops) k = [] := by simp [omdVals, hnil]
    rw [lastVal, ← hvals, h0] at h
    cases h
  obtain ⟨n, m2, hlastn, hkey, hok, hw2, ⟨xs, ys, hdec, hys, hord2⟩, hdlen, hnid,
    hkdrop, hkoth⟩ := OMD.removeLastItem_spec (OMD.build ops) k hw hne
  have hfind : dictFind (OMD.build ops).dict k
      = some (keyNodes k (OMD.build ops).order) := by
    rw [hw.dict_char k, if_neg hne]
  have hdel : (OMD.build ops).delE k = .ok m2 := by
    simp [OMD.delE, hfind, hok, Except.map]
  have hnv : n.val = v := by
    have h1 : (omdVals (OMD.build ops) k).getLast? = some n.val := by
      simp [omdVals, getLast?_map, hlastn]
    rw [hvals] at h1
    rw [lastVal] at h
    exact Option.some.inj (h1.symm.trans h)
  refine ⟨m2, xs.map (fun nn => (nn.key, nn.val)), ys.map (fun nn => (nn.key, nn.val)),
    hdel, ?_, ?_, ?_, ?_⟩
  · have hops : ops = (OMD.build ops).items := (OMD.build_items ops).symm
    rw [hops, OMD.items, hdec]
    simp [hkey, hnv]
  · have hpost : (ys.map fun nn => (nn.key, nn.val)).filter (fun p => p.1 == k)
        = (keyNodes k ys).map fun nn => (nn.key, nn.val) := by
      rw [keyNodes, List.filter_map]
      rfl
    rw [hpost, hys]
    rfl
  · rw [OMD.items, hord2]
    simp
  · rw [OMD.getE_char m2 hw2 k]
    have hv2 : omdVals m2 k = ((ops.filter (fun p => p.1 == k)).map (·.2)).dropLast := by
      rw [omdVals, hkdrop, dropLast_map_comm, ← hvals, omdVals]
    rw [hv2]

/-! ### Case-insensitive overlay characterisation -/

/-- The distinct elements of a list in first-occurrence order. -/
def dedupFirst (l : List String) : List String :=
  l.foldl (fun acc k => if k ∈ acc then acc else acc ++ [k]) []

/-- The distinct original-case variants among the keys of `ops` that fold to
`l`, in first-seen order — what `_casemap[l][0]` holds. -/
def variantsOf (ops : List (String × String)) (l : String) : List String :=
  dedupFirst ((ops.map Prod.fst).filter (fun k => strLower k == l))

theorem foldl_dedup_ne_nil (xs acc : List String) (h : acc ≠ []) :
    xs.foldl (fun acc k => if k ∈ acc then acc else acc ++ [k]) acc ≠ [] := by
  induction xs generalizing acc with
  | nil => exact h
  | cons x rest ih =>
    simp only [List.foldl_cons]
    by_cases hx : x ∈ acc
    · rw [if_pos hx]
      exact ih acc h
    · rw [if_neg hx]
      exact ih _ (by simp)

theorem dedupFirst_eq_nil_iff (xs : List String) : dedupFirst xs = [] ↔ xs = [] := by
  constructor
  · intro h
    cases xs with
    | nil => rfl
    | cons x rest =>
      exfalso
      have : dedupFirst (x :: rest) ≠ [] := by
        simp only [dedupFirst, List.foldl_cons, List.not_mem_nil, if_neg, List.nil_append]
        exact foldl_dedup_ne_nil rest [x] (by simp)
      exact this h
  · intro h
    subst h
    rfl

theorem dedupFirst_concat (xs : List String) (k : String) :
    dedupFirst (xs ++ [k]) =
      if k ∈ dedupFirst xs then dedupFirst xs else dedupFirst xs ++ [k] := by
  simp [dedupFirst, List.foldl_append]

theorem CIOMD.build_concat (ops : List (String × String)) (p : String × String) :
    CIOMD.build (ops ++ [p]) = (CIOMD.build ops).set p.1 p.2 := by
  simp [CIOMD.build, List.foldl_append]

theorem CIOMD.build_base (ops : List (String × String)) :
    (CIOMD.build ops).base = OMD.build ops := by
  have hgen : ∀ (l : List (String × String)) (c : CIOMD),
      (l.foldl (fun m p => m.set p.1 p.2) c).base
        = l.foldl (fun m p => m.set p.1 p.2) c.base := by
    intro l
    induction l with
    | nil => intro c; rfl
    | cons p rest ih =>
      intro c
      simp only [List.foldl_cons]
      rw [ih]
      rfl
  exact hgen ops CIOMD.empty

theorem variantsOf_concat (ops : List (String × String)) (p : String × String)
    (l : String) :
    variantsOf (ops ++ [p]) l =
      if strLower p.1 = l then
        (if p.1 ∈ variantsOf ops l then variantsOf ops l else variantsOf ops l ++ [p.1])
      else variantsOf ops l := by
  simp only [variantsOf, List.map_append, List.map_cons, List.map_nil,
    List.filter_append]
  by_cases hl : strLower p.1 = l
  · rw [if_pos hl]
    have hfil : List.filter (fun k => strLower k == l) [p.1] = [p.1] := by
      simp [List.filter_cons, hl]
    rw [hfil, dedupFirst_concat]
  · rw [if_neg hl]
    have hfil : List.filter (fun k => strLower k == l) [p.1] = [] := by
      simp [List.filter_cons, hl]
    rw [hfil, List.append_nil]

/-- The casemap of a built case-insensitive multimap holds exactly the
distinct case variants in first-seen order (the stored membership set equals
the variant list, since both record each new variant once). -/
theorem CIOMD.build_casemap (ops : List (String × String)) (l : String) :
    alFind (CIOMD.build ops).casemap l =
      if variantsOf ops l = [] then none
      else some (variantsOf ops l, variantsOf ops l) := by
  induction ops using List.reverseRecOn with
  | nil => simp [CIOMD.build, CIOMD.empty, alFind, variantsOf, dedupFirst]
  | append_singleton ops p ih =>
    rw [CIOMD.build_concat, variantsOf_concat]
    simp only [CIOMD.set]
    by_cases hl : strLower p.1 = l
    · rw [if_pos hl, hl]
      rw [alFind_alSet_self]
      by_cases hv : variantsOf ops l = []
      · rw [ih, if_pos hv, hv]
        simp
      · rw [ih, if_neg hv]
        simp only [Option.getD_some]
        by_cases hp : p.1 ∈ variantsOf ops l
        · simp [hp, hv]
        · simp [hp, hv]
    · rw [if_neg hl]
      rw [alFind_alSet_ne _ _ _ _ (fun hh => hl hh.symm)]
      exact ih

/-- The behaviour of case-insensitive `get` stated over the `set` history:
resolve the folded key to the most recently first-seen case variant, then
return the most recent value stored under that exact variant; `KeyError` on
the folded key when no entry folds to it.  (The inner `KeyError` branch is
unreachable: a recorded variant always has at least one entry.) -/
def ciGetSpec (ops : List (String × String)) (k : String) : Except MapErr String :=
  match (variantsOf ops (strLower k)).getLast? with
  | none => .error (.keyNotFound (strLower k))
  | some kv =>
    match ((ops.filter (fun p => p.1 == kv)).map (·.2)).getLast? with
    | none => .error (.keyNotFound kv)
    | some v => .ok v

theorem CIOMD.buildCI_getE (ops : List (String × String)) (k : String) :
    (CIOMD.build ops).getE k = ciGetSpec ops k := by
  simp only [CIOMD.getE, ciGetSpec]
  rw [CIOMD.build_casemap]
  by_cases hv : variantsOf ops (strLower k) = []
  · rw [if_pos hv, hv]
    simp
  · rw [if_neg hv]
    cases hl : (variantsOf ops (strLower k)).getLast? with
    | none => exact absurd (List.getLast?_eq_none_iff.mp hl) hv
    | some kv =>
      simp only [hl]
      rw [CIOMD.build_base, OMD.build_getE]
      rfl

theorem CIOMD.buildCI_items (ops : List (String × String)) :
    (CIOMD.build ops).items = ops := by
  rw [CIOMD.items, CIOMD.build_base, OMD.build_items]

theorem CIOMD.build_containsCI (ops : List (String × String)) (k : String) :
    (CIOMD.build ops).containsCI k = !(variantsOf ops (strLower k)).isEmpty := by
  rw [CIOMD.containsCI, CIOMD.build_casemap]
  by_cases hv : variantsOf ops (strLower k) = [] <;> simp [hv, List.isEmpty_iff]

theorem foldl_cookie_set (cookies : List (String × String)) (h : CIOMD) :
    cookies.foldl (fun h c => h.set "Set-Cookie" (cookieOutput c)) h =
      (cookies.map (fun c => ("Set-Cookie", cookieOutput c))).foldl
        (fun h p => h.set p.1 p.2) h := by
  induction cookies generalizing h with
  | nil => rfl
  | cons c rest ih =>
    simp only [List.foldl_cons, List.map_cons]
    rw [ih]

theorem foldl_set_build_ci (ops extra : List (String × String)) :
    extra.foldl (fun h p => h.set p.1 p.2) (CIOMD.build ops)
      = CIOMD.build (ops ++ extra) := by
  simp [CIOMD.build, List.foldl_append]

/-- Models `finalize` on a built header map with no content-type present: one
Set-Cookie entry is appended per cookie, then the default content type is
stamped. -/
theorem Response.finalize_build (content : String) (code : Nat)
    (hs cookies : List (String × String))
    (hct : variantsOf (hs ++ cookies.map (fun c => ("Set-Cookie", cookieOutput c)))
      "content-type" = []) :
    Response.finalize ⟨content, code, CIOMD.build hs, cookies⟩ =
      ⟨content, code,
        CIOMD.build (hs ++ cookies.map (fun c => ("Set-Cookie", cookieOutput c))
          ++ [("Content-Type", defaultContentType)]), cookies⟩ := by
  simp only [Response.finalize]
  rw [foldl_cookie_set, foldl_set_build_ci]
  have hcont : (CIOMD.build
      (hs ++ cookies.map fun c => ("Set-Cookie", cookieOutput c))).containsCI
        "content-type" = false := by
    rw [CIOMD.build_containsCI]
    have hll : strLower "content-type" = "content-type" := rfl
    rw [hll, hct]
    rfl
  have hcond : defaultContentType ≠ "" ∧
      ¬ ((CIOMD.build (hs ++ cookies.map fun c =>
        ("Set-Cookie", cookieOutput c))).containsCI "content-type" = true) := by
    refine ⟨by simp [defaultContentType], ?_⟩
    rw [hcont]
    simp
  rw [if_pos hcond]
  congr 1
  exact (CIOMD.build_concat _ ("Content-Type", defaultContentType)).symm

/-- Models `finalize` on a built header map that already holds a content-type entry:
only the Set-Cookie entries are appended. -/
theorem Response.finalize_build_ct (content : String) (code : Nat)
    (hs cookies : List (String × String))
    (hct : variantsOf (hs ++ cookies.map (fun c => ("Set-Cookie", cookieOutput c)))
      "content-type" ≠ []) :
    Response.finalize ⟨content, code, CIOMD.build hs, cookies⟩ =
      ⟨content, code,
        CIOMD.build (hs ++ cookies.map (fun c => ("Set-Cookie", cookieOutput c))),
        cookies⟩ := by
  simp only [Response.finalize]
  rw [foldl_cookie_set, foldl_set_build_ci]
  have hcont : (CIOMD.build
      (hs ++ cookies.map fun c => ("Set-Cookie", cookieOutput c))).containsCI
        "content-type" = true := by
    rw [CIOMD.build_containsCI]
    have hll : strLower "content-type" = "content-type" := rfl
    rw [hll]
    simp [List.isEmpty_iff, hct]
  have hcond : ¬ (defaultContentType ≠ "" ∧
      ¬ ((CIOMD.build (hs ++ cookies.map fun c =>
        ("Set-Cookie", cookieOutput c))).containsCI "content-type" = true)) := by
    rw [hcont]
    simp
  rw [if_neg hcond]

theorem OMD.popall_absent (m : OMD) (k : String)
    (h : dictFind m.dict k = none) : m.popall k = ([], m) := by
  simp [OMD.popall, h]

theorem CIOMD.popallE_absent (c : CIOMD) (k : String)
    (h : alFind c.casemap (strLower k) = none) :
    c.popallE k = .error (.keyNotFound (strLower k)) := by
  simp [CIOMD.popallE, h]

/-- The candidate list `_resolve` scans for a method. -/
def Finder.candidates (fi : Finder) (method : String) : List Route :=
  lookupRmap fi.rmap (strLower method)

theorem scanRoutes_eq_none (rs : List Route) (path : String)
    (h : ∀ r ∈ rs, routeHit r path = none) : scanRoutes rs path = none := by
  induction rs with
  | nil => rfl
  | cons r rest ih =>
    have h0 := h r (by simp)
    simp only [scanRoutes, h0]
    exact ih (fun r1 hr1 => h r1 (List.mem_cons_of_mem _ hr1))

theorem scanRoutes_eq_of_first (rs : List Route) (path : String) (i : Nat)
    (hi : i < rs.length)
    (hmatch : (routeHit (rs.get ⟨i, hi⟩) path).isSome)
    (hprev : ∀ j (hj : j < i), routeHit (rs.get ⟨j, Nat.lt_trans hj hi⟩) path = none) :
    scanRoutes rs path = routeHit (rs.get ⟨i, hi⟩) path := by
  induction rs generalizing i with
  | nil => simp at hi
  | cons r rest ih =>
    cases i with
    | zero =>
      simp only [List.get] at hmatch ⊢
      cases hr : routeHit r path with
      | none =>
        rw [hr] at hmatch
        simp at hmatch
      | some res => simp [scanRoutes, hr]
    | succ i1 =>
      have h0 : routeHit r path = none := hprev 0 (Nat.succ_pos i1)
      simp only [scanRoutes, h0]
      exact ih i1 (Nat.lt_of_succ_lt_succ hi) hmatch
        (fun j hj => hprev (j + 1) (Nat.succ_lt_succ hj))

theorem routeHit_eq_none_iff (r : Route) (path : String) :
    routeHit r path = none ↔ r.pat path = none := by
  cases hp : r.pat path with
  | none => simp [routeHit, hp]
  | some mr => cases ht : r.target <;> simp [routeHit, hp, ht]

theorem routeHit_target (r : Route) (path : String) (mr : MatchRes)
    (hp : r.pat path = some mr) :
    ∃ args kwargs rem, routeHit r path = some (r.target, args, kwargs, rem) := by
  cases ht : r.target with
  | finder f =>
    exact ⟨[], [], path.take mr.start ++ path.drop mr.stop,
      by simp [routeHit, hp, ht]⟩
  | handler hh =>
    refine ⟨if mr.groupdict.isEmpty then mr.groups else [], mr.groupdict, "", ?_⟩
    simp [routeHit, hp, ht]

theorem scanRoutes_finder_inv (rs : List Route) (path : String) (f : Finder)
    (args : List String) (kwargs : List (String × String)) (rem : String)
    (h : scanRoutes rs path = some (.finder f, args, kwargs, rem)) :
    ∃ r ∈ rs, ∃ mr, r.pat path = some mr ∧ r.target = .finder f ∧
      rem = path.take mr.start ++ path.drop mr.stop := by
  induction rs with
  | nil => cases h
  | cons r rest ih =>
    simp only [scanRoutes] at h
    cases hr : routeHit r path with
    | none =>
      rw [hr] at h
      obtain ⟨r1, hr1, mr, hmr⟩ := ih h
      exact ⟨r1, List.mem_cons_of_mem _ hr1, mr, hmr⟩
    | some res =>
      rw [hr] at h
      cases h
      unfold routeHit at hr
      cases hp : r.pat path with
      | none =>
        rw [hp] at hr
        cases hr
      | some mr =>
        rw [hp] at hr
        cases ht : r.target with
        | handler hh =>
          rw [ht] at hr
          simp at hr
        | finder f1 =>
          rw [ht] at hr
          simp only [Option.some.injEq, Prod.mk.injEq] at hr
          obtain ⟨hf, -, -, hrem⟩ := hr
          cases hf
          exact ⟨r, by simp, mr, hp, ht, hrem.symm⟩

theorem Finder.resolve_eq_scan (fi : Finder) (method path : String) :
    fi.resolve method path = scanRoutes (fi.candidates method) path := rfl

/-! ### Concrete fixtures used by witnesses and counterexamples -/

/-- An encoder for which every unicode value encodes (to itself). -/
def encId : String → Option String := fun s => some s

/-- An encoder for which no unicode value encodes. -/
def encNone : String → Option String := fun _ => none

def reqGET (p : String) : Request := ⟨"GET", p⟩

/-- A pattern matching exactly the literal `lit` (like the regex `^lit$`). -/
def exactPat (lit : String) : Pattern := fun path =>
  if path = lit then some ⟨0, lit.length, [], []⟩ else none

/-- A pattern matching the literal `lit` at the start of the path. -/
def startPat (lit : String) : Pattern := fun path =>
  if path.take lit.length = lit then some ⟨0, lit.length, [], []⟩ else none

def hStrA : HandlerFn := fun _ _ _ => .str "A"
def hStrHi : HandlerFn := fun _ _ _ => .str "hi"
def hOther : HandlerFn := fun _ _ _ => .other
def hUni : HandlerFn := fun _ _ _ => .uni "u"
def hRaise : HandlerFn := fun _ _ _ => .raise "boom"
def hRespX : HandlerFn := fun _ _ _ => .resp (Response.make "X" 201 [])

def fiC5 : Finder := .mk
  [("get", [⟨exactPat "/a", .handler hStrA⟩, ⟨exactPat "/a", .handler hStrHi⟩])]
  defaultOn404 defaultOn500

def subC4 : Finder := .mk [("get", [⟨exactPat "/x", .handler hStrHi⟩])]
  defaultOn404 defaultOn500

def fiC4 : Finder := .mk
  [("get", [⟨startPat "/sub", .finder subC4⟩, ⟨startPat "/", .handler hStrA⟩])]
  defaultOn404 defaultOn500

def fiC6 : Finder := .mk [("get", [⟨exactPat "/a", .handler hRaise⟩])]
  defaultOn404 defaultOn500

def fiC9 : Finder := .mk
  [("get", [⟨exactPat "/s", .handler hStrHi⟩, ⟨exactPat "/o", .handler hOther⟩,
    ⟨exactPat "/u", .handler hUni⟩, ⟨exactPat "/r", .handler hRespX⟩])]
  defaultOn404 defaultOn500

def fiHook404Bad : Finder := .mk [] (fun _ => .notResponse) defaultOn500
def fiHook404Raise : Finder := .mk [] (fun _ => .raise "boom") defaultOn500
def fiHook500Bad : Finder := .mk [] defaultOn404 (fun _ _ => .notResponse)
def fiHook500Raise : Finder := .mk [] defaultOn404 (fun _ _ => .raise "boom2")

/-! ### Claim theorems -/

/-- **C5** — for every router, method and path, `resolve` returns the target
of the earliest-declared pattern for that method that matches at the start
of the path, even when a later-declared pattern for the same method would
also match; when no pattern matches, `resolve` reports no target. -/
theorem c5_resolve_first_match (fi : Finder) (method path : String) :
    ((∀ r ∈ fi.candidates method, r.pat path = none) →
      fi.resolve method path = none) ∧
    (∀ i (hi : i < (fi.candidates method).length),
      ((fi.candidates method).get ⟨i, hi⟩).pat path ≠ none →
      (∀ j (hj : j < i),
        ((fi.candidates method).get ⟨j, Nat.lt_trans hj hi⟩).pat path = none) →
      (fi.resolve method path).map (fun res => res.1)
          = some (((fi.candidates method).get ⟨i, hi⟩).target) ∧
        fi.resolve method path
          = routeHit ((fi.candidates method).get ⟨i, hi⟩) path) := by
  constructor
  · intro h
    exact scanRoutes_eq_none _ _
      (fun r hr => (routeHit_eq_none_iff r path).mpr (h r hr))
  · intro i hi hm hprev
    cases hp : ((fi.candidates method).get ⟨i, hi⟩).pat path with
    | none => exact absurd hp hm
    | some mr =>
      have hsome : (routeHit ((fi.candidates method).get ⟨i, hi⟩) path).isSome := by
        unfold routeHit
        rw [hp]
        cases ht : ((fi.candidates method).get ⟨i, hi⟩).target <;> rfl
      have hprev2 : ∀ j (hj : j < i),
          routeHit ((fi.candidates method).get ⟨j, Nat.lt_trans hj hi⟩) path = none :=
        fun j hj => (routeHit_eq_none_iff _ _).mpr (hprev j hj)
      have hscan := scanRoutes_eq_of_first (fi.candidates method) path i hi hsome hprev2
      obtain ⟨args, kwargs, rem, hrh⟩ := routeHit_target _ path mr hp
      constructor
      · rw [Finder.resolve_eq_scan, hscan, hrh]
        rfl
      · rw [Finder.resolve_eq_scan, hscan]

theorem c5_witness :
    (fiC5.resolve "GET" "/a").map (fun res => res.1)
        = some (((fiC5.candidates "GET").get ⟨0, Nat.zero_lt_succ 1⟩).target) ∧
      fiC5.resolve "GET" "/a"
        = routeHit ((fiC5.candidates "GET").get ⟨0, Nat.zero_lt_succ 1⟩) "/a" :=
  (c5_resolve_first_match fiC5 "GET" "/a").2 0 (Nat.zero_lt_succ 1)
    (fun h => Option.noConfusion h) (fun j hj => absurd hj (Nat.not_lt_zero j))

/-- **C4** — when the first matching pattern for the method targets a nested
router, dispatch excises exactly the matched span from the path
(`path[:start] + path[end:]`) and recursively dispatches the remainder to
the nested router; a miss inside the nested router yields that router's own
404 machinery and none of the parent's remaining candidates are tried. -/
theorem c4_nested_delegation (enc : String → Option String) (fi : Finder)
    (path : String) (req : Request) (sub : Finder) (args : List String)
    (kwargs : List (String × String)) (rem : String)
    (hres : fi.resolve req.method path = some (.finder sub, args, kwargs, rem)) :
    Finder.handle enc fi path req = Finder.handle enc sub rem req ∧
    (∃ r ∈ fi.candidates req.method, ∃ mr, r.pat path = some mr ∧
      r.target = .finder sub ∧ rem = path.take mr.start ++ path.drop mr.stop) ∧
    (sub.resolve req.method rem = none →
      Finder.handle enc fi path req = on404run sub req) := by
  refine ⟨handle_resolve_finder enc fi path req sub args kwargs rem hres, ?_, ?_⟩
  · exact scanRoutes_finder_inv _ path sub args kwargs rem hres
  · intro hnone
    rw [handle_resolve_finder enc fi path req sub args kwargs rem hres]
    exact handle_resolve_none enc sub rem req hnone

theorem c4_witness :
    Finder.handle encId fiC4 "/sub/y" (reqGET "/sub/y")
        = Finder.handle encId subC4 "/y" (reqGET "/sub/y") ∧
      Finder.handle encId fiC4 "/sub/y" (reqGET "/sub/y")
        = on404run subC4 (reqGET "/sub/y") := by
  have h := c4_nested_delegation encId fiC4 "/sub/y" (reqGET "/sub/y") subC4
    [] [] "/y" rfl
  exact ⟨h.1, h.2.2 rfl⟩

/-- **C6** — a handler that raises never lets the exception escape: dispatch
returns the result of the router's 500 machinery, and with the default 500
hook that is the built-in empty 500 response. -/
theorem c6_handler_fault_to_500 (enc : String → Option String) (fi : Finder)
    (path : String) (req : Request) (hd : HandlerFn) (args : List String)
    (kwargs : List (String × String)) (rem : String) (e : String)
    (hres : fi.resolve req.method path = some (.handler hd, args, kwargs, rem))
    (hraise : hd req args kwargs = .raise e) :
    Finder.handle enc fi path req = on500run fi req e ∧
    (fi.on500 = defaultOn500 →
      Finder.handle enc fi path req
        = .resp (Response.make "" 500 [("Content-Length", "0")])) := by
  have h1 : Finder.handle enc fi path req = on500run fi req e := by
    rw [handle_resolve_handler enc fi path req hd args kwargs rem hres]
    simp [runHandler, hraise]
  refine ⟨h1, fun hdef => ?_⟩
  rw [h1]
  simp [on500run, hdef, defaultOn500]

theorem c6_witness :
    Finder.handle encId fiC6 "/a" (reqGET "/a") = on500run fiC6 (reqGET "/a") "boom" ∧
      Finder.handle encId fiC6 "/a" (reqGET "/a")
        = .resp (Response.make "" 500 [("Content-Length", "0")]) := by
  have h := c6_handler_fault_to_500 encId fiC6 "/a" (reqGET "/a") hRaise
    [] [] "" "boom" rfl rfl
  exact ⟨h.1, h.2 rfl⟩

/-- **C9** — return-value coercion: a byte string becomes a 200 response
with its length as Content-Length; a unicode string is encoded and becomes a
200 response with the encoded length (and a Content-Encoding header), or is
routed to the 500 path if encoding fails; a `Response` passes through
unchanged; any other returned value is a type-mismatch fault routed to the
500 path. -/
theorem c9_return_value_coercion (enc : String → Option String) (fi : Finder)
    (path : String) (req : Request) (hd : HandlerFn) (args : List String)
    (kwargs : List (String × String)) (rem : String)
    (hres : fi.resolve req.method path = some (.handler hd, args, kwargs, rem)) :
    (∀ s, hd req args kwargs = .str s →
      Finder.handle enc fi path req
        = .resp (Response.make s 200 [("Content-Length", toString s.length)])) ∧
    (∀ u s, hd req args kwargs = .uni u → enc u = some s →
      Finder.handle enc fi path req
        = .resp (Response.make s 200
            [("Content-Length", toString s.length), ("Content-Encoding", "UTF-8")])) ∧
    (∀ u, hd req args kwargs = .uni u → enc u = none →
      Finder.handle enc fi path req = on500run fi req "UnicodeEncodeError") ∧
    (∀ r, hd req args kwargs = .resp r → Finder.handle enc fi path req = .resp r) ∧
    (hd req args kwargs = .other →
      Finder.handle enc fi path req
        = on500run fi req "TypeError: expected a Response") := by
  have hh := handle_resolve_handler enc fi path req hd args kwargs rem hres
  refine ⟨?_, ?_, ?_, ?_, ?_⟩
  · intro s hs
    rw [hh]
    simp [runHandler, hs]
  · intro u s hu henc
    rw [hh]
    simp [runHandler, hu, henc]
  · intro u hu henc
    rw [hh]
    simp [runHandler, hu, henc]
  · intro r hr
    rw [hh]
    simp [runHandler, hr]
  · intro ho
    rw [hh]
    simp [runHandler, ho]

theorem c9_witness :
    Finder.handle encId fiC9 "/s" (reqGET "/s")
        = .resp (Response.make "hi" 200 [("Content-Length", toString "hi".length)]) ∧
      Finder.handle encId fiC9 "/u" (reqGET "/u")
        = .resp (Response.make "u" 200
            [("Content-Length", toString "u".length), ("Content-Encoding", "UTF-8")]) ∧
      Finder.handle encNone fiC9 "/u" (reqGET "/u")
        = on500run fiC9 (reqGET "/u") "UnicodeEncodeError" ∧
      Finder.handle encId fiC9 "/r" (reqGET "/r") = .resp (Response.make "X" 201 []) ∧
      Finder.handle encId fiC9 "/o" (reqGET "/o")
        = on500run fiC9 (reqGET "/o") "TypeError: expected a Response" := by
  refine ⟨?_, ?_, ?_, ?_, ?_⟩
  · exact (c9_return_value_coercion encId fiC9 "/s" (reqGET "/s") hStrHi
      [] [] "" rfl).1 "hi" rfl
  · exact (c9_return_value_coercion encId fiC9 "/u" (reqGET "/u") hUni
      [] [] "" rfl).2.1 "u" "u" rfl rfl
  · exact (c9_return_value_coercion encNone fiC9 "/u" (reqGET "/u") hUni
      [] [] "" rfl).2.2.1 "u" rfl rfl
  · exact (c9_return_value_coercion encId fiC9 "/r" (reqGET "/r") hRespX
      [] [] "" rfl).2.2.2.1 (Response.make "X" 201 []) rfl
  · exact (c9_return_value_coercion encId fiC9 "/o" (reqGET "/o") hOther
      [] [] "" rfl).2.2.2.2 rfl

/-- **C1 counterexample** — a router with an empty route table whose 404 hook
returns a non-`Response` value: dispatch propagates a `TypeError` (the
built-in 404 fallback's headers list applies a tuple to arguments) instead
of returning the built-in default 404 response. -/
theorem c1_counterexample :
    Finder.handle encId fiHook404Bad "/x" (reqGET "/x")
        = .exc "TypeError: tuple object is not callable" ∧
      Finder.handle encId fiHook404Bad "/x" (reqGET "/x")
        ≠ .resp (Response.make "" 404 [("Content-Length", "0")]) := by
  have hnone : fiHook404Bad.resolve (reqGET "/x").method "/x" = none := rfl
  have h := handle_resolve_none encId fiHook404Bad "/x" (reqGET "/x") hnone
  rw [h]
  constructor
  · rfl
  · intro hcontra
    have : on404run fiHook404Bad (reqGET "/x")
        = Dout.exc "TypeError: tuple object is not callable" := rfl
    rw [this] at hcontra
    cases hcontra

/-- **C1 (amended)** — hook-fault handling as the code implements it: a
raising 404 hook is routed to the 500 path (not the built-in 404 default);
a 404 hook returning a non-`Response` makes the fallback itself raise a
`TypeError` that propagates out of dispatch; a raising 500 hook makes the
fallback call itself raise a `TypeError` that propagates; only a 500 hook
returning a non-`Response` yields the built-in default "Server Error" 500
response.  On a miss, dispatch runs exactly this 404 machinery. -/
theorem c1_hook_fault_amended (fi : Finder) (req : Request) (e : String) :
    (fi.on404 req = .raise e → on404run fi req = on500run fi req e) ∧
    (fi.on404 req = .notResponse →
      on404run fi req = .exc "TypeError: tuple object is not callable") ∧
    (∀ e2, fi.on500 req e = .raise e2 →
      on500run fi req e
        = .exc "TypeError: unbound method on_500() must be called with Finder instance") ∧
    (fi.on500 req e = .notResponse →
      on500run fi req e = .resp (Response.make "Server Error" 500
        [("Content-Length", "12"), ("Content-Type", "text/plain")])) ∧
    (∀ enc path, fi.resolve req.method path = none →
      Finder.handle enc fi path req = on404run fi req) := by
  refine ⟨?_, ?_, ?_, ?_, ?_⟩
  · intro h
    simp [on404run, h]
  · intro h
    simp [on404run, h]
  · intro e2 h
    simp [on500run, h]
  · intro h
    simp [on500run, h]
  · intro enc path h
    exact handle_resolve_none enc fi path req h

theorem c1_witness :
    on404run fiHook404Raise (reqGET "/x") = on500run fiHook404Raise (reqGET "/x") "boom" ∧
      on404run fiHook404Bad (reqGET "/x")
        = .exc "TypeError: tuple object is not callable" ∧
      on500run fiHook500Raise (reqGET "/x") "e"
        = .exc "TypeError: unbound method on_500() must be called with Finder instance" ∧
      on500run fiHook500Bad (reqGET "/x") "e"
        = .resp (Response.make "Server Error" 500
            [("Content-Length", "12"), ("Content-Type", "text/plain")]) ∧
      Finder.handle encId fiHook404Raise "/x" (reqGET "/x")
        = on404run fiHook404Raise (reqGET "/x") :=
  ⟨(c1_hook_fault_amended fiHook404Raise (reqGET "/x") "boom").1 rfl,
    (c1_hook_fault_amended fiHook404Bad (reqGET "/x") "e").2.1 rfl,
    (c1_hook_fault_amended fiHook500Raise (reqGET "/x") "e").2.2.1 "boom2" rfl,
    (c1_hook_fault_amended fiHook500Bad (reqGET "/x") "e").2.2.2.1 rfl,
    (c1_hook_fault_amended fiHook404Raise (reqGET "/x") "e").2.2.2.2 encId "/x" rfl⟩

/-- **C7** — ordered multimap built by a sequence of `set` operations:
`get` returns the most recent value for the key (`KeyError` when none);
iteration reproduces global insertion order including duplicate keys;
`delete` on an absent key raises `KeyError`, and on a present key removes
exactly the most recent entry for that key, after which `get` returns the
next-most-recent value or raises `KeyError` if none remain. -/
theorem c7_omd_contract (ops : List (String × String)) (k : String) :
    ((OMD.build ops).getE k = match lastVal ops k with
      | none => .error (.keyNotFound k)
      | some v => .ok v) ∧
    (OMD.build ops).items = ops ∧
    (lastVal ops k = none → (OMD.build ops).delE k = .error (.keyNotFound k)) ∧
    (∀ v, lastVal ops k = some v →
      ∃ m2 pre post, (OMD.build ops).delE k = .ok m2 ∧
        ops = pre ++ (k, v) :: post ∧
        post.filter (fun p => p.1 == k) = [] ∧
        m2.items = pre ++ post ∧
        m2.getE k =
          match ((ops.filter (fun p => p.1 == k)).map (·.2)).dropLast.getLast? with
          | none => .error (.keyNotFound k)
          | some w => .ok w) := by
  refine ⟨OMD.build_getE ops k, OMD.build_items ops, OMD.build_delE_absent ops k, ?_⟩
  intro v hv
  exact OMD.build_delE_spec ops k v hv

theorem c7_witness :
    ((OMD.build [("a", "1"), ("b", "2"), ("a", "3")]).getE "a" = .ok "3") ∧
      ((OMD.build [("a", "1"), ("b", "2"), ("a", "3")]).items
        = [("a", "1"), ("b", "2"), ("a", "3")]) ∧
      ((OMD.build [("a", "1"), ("b", "2"), ("a", "3")]).delE "c"
        = .error (.keyNotFound "c")) ∧
      (∃ m2 pre post,
        (OMD.build [("a", "1"), ("b", "2"), ("a", "3")]).delE "a" = .ok m2 ∧
        [("a", "1"), ("b", "2"), ("a", "3")] = pre ++ ("a", "3") :: post ∧
        post.filter (fun p => p.1 == "a") = [] ∧
        m2.items = pre ++ post ∧
        m2.getE "a" = .ok "1") := by
  have h := c7_omd_contract [("a", "1"), ("b", "2"), ("a", "3")] "a"
  have habs := (c7_omd_contract [("a", "1"), ("b", "2"), ("a", "3")] "c").2.2.1 rfl
  refine ⟨h.1.trans rfl, h.2.1, habs, ?_⟩
  obtain ⟨m2, pre, post, h1, h2, h3, h4, h5⟩ := h.2.2.2 "3" rfl
  exact ⟨m2, pre, post, h1, h2, h3, h4, h5.trans rfl⟩

/-- **C8** — every mutating operation preserves the invariant that the
stored length counter equals the number of nodes in the linked list and
equals the sum of the per-key node-list lengths; and removing the most
recent node for a key (`_remove_last_item`) leaves the relative order of
the remaining nodes unchanged (the new order is a sublist with exactly one
node removed). -/
theorem c8_invariants (m : OMD) (hw : m.WF) :
    (∀ op : MOp, (m.applyOp op).dlen = (m.applyOp op).order.length ∧
      (m.applyOp op).dlen = dictSizes (m.applyOp op).dict) ∧
    (∀ k v m2, m.removeLastItem k = .ok (v, m2) →
      m2.order.Sublist m.order ∧ m2.order.length + 1 = m.order.length) := by
  constructor
  · intro op
    have hw2 := OMD.WF.applyOp m hw op
    exact ⟨hw2.len_order, hw2.len_dict⟩
  · intro k v m2 hok
    cases hfind : dictFind m.dict k with
    | none => simp [OMD.removeLastItem, hfind] at hok
    | some ns =>
      obtain ⟨hne, hns⟩ := dictFind_some_keyNodes m hw hfind
      obtain ⟨n, m2s, hlast, hkey, hok2, hw2, ⟨xs, ys, hdec, hys, hord⟩, -⟩ :=
        OMD.removeLastItem_spec m k hw hne
      rw [hok] at hok2
      simp only [Except.ok.injEq, Prod.mk.injEq] at hok2
      obtain ⟨-, hm2⟩ := hok2
      subst hm2
      have hsub : m2.order.Sublist m.order := by
        rw [hord, hdec]
        exact (List.sublist_cons_self n ys).append_left xs
      have hlen : m2.order.length + 1 = m.order.length := by
        rw [hord, hdec]
        simp
        omega
      exact ⟨hsub, hlen⟩

theorem c8_witness :
    (((OMD.build [("a", "1"), ("b", "2")]).applyOp (.mpopall "a")).dlen
        = ((OMD.build [("a", "1"), ("b", "2")]).applyOp (.mpopall "a")).order.length) ∧
      (((OMD.build [("a", "1"), ("b", "2")]).applyOp (.mpopall "a")).dlen
        = dictSizes ((OMD.build [("a", "1"), ("b", "2")]).applyOp (.mpopall "a")).dict) ∧
      ((OMD.build [("a", "1"), ("b", "2")]).applyOp (.mdel "a")).order.Sublist
        (OMD.build [("a", "1"), ("b", "2")]).order := by
  have h := c8_invariants (OMD.build [("a", "1"), ("b", "2")])
    (OMD.build_WF [("a", "1"), ("b", "2")])
  refine ⟨(h.1 (.mpopall "a")).1, (h.1 (.mpopall "a")).2, ?_⟩
  exact (h.2 "a" "1" ((OMD.build [("a", "1"), ("b", "2")]).applyOp (.mdel "a")) rfl).1

theorem mem_foldl_dedup {x : String} : ∀ (l acc : List String),
    x ∈ l.foldl (fun acc k => if k ∈ acc then acc else acc ++ [k]) acc →
    x ∈ acc ∨ x ∈ l
  | [], acc, h => Or.inl h
  | a :: rest, acc, h => by
    simp only [List.foldl_cons] at h
    rcases mem_foldl_dedup rest _ h with h1 | h1
    · by_cases ha : a ∈ acc
      · rw [if_pos ha] at h1
        exact Or.inl h1
      · rw [if_neg ha] at h1
        rcases List.mem_append.mp h1 with h2 | h2
        · exact Or.inl h2
        · simp only [List.mem_singleton] at h2
          exact Or.inr (by simp [h2])
    · exact Or.inr (List.mem_cons_of_mem _ h1)

theorem mem_dedupFirst {x : String} {l : List String} (h : x ∈ dedupFirst l) :
    x ∈ l := by
  rcases mem_foldl_dedup l [] h with h1 | h1
  · cases h1
  · exact h1

/-- **C2 counterexample** — set `A` then `a` then `A` again (fold-case equal
keys in interleaved order): the most recently set value is `"3"`, but the
case-insensitive `get` returns `"2"` (it resolves the folded key to the most
recently *first-seen* variant `a` and reads that variant's latest value). -/
theorem c2_counterexample :
    (CIOMD.build [("A", "1"), ("a", "2"), ("A", "3")]).getE "a" = .ok "2" ∧
      (Except.ok "2" : Except MapErr String) ≠ .ok "3" := by
  constructor
  · rfl
  · intro h
    injection h with h1
    exact absurd h1 (by decide)

/-- **C2 (amended)** — case-insensitive `get` resolves the folded key to the
most recently first-seen case variant and returns the most recent value
stored under that exact variant (which, with interleaved case variants, need
not be the globally most-recently-set fold-case value); it fails with
`KeyError` exactly when no entry's key folds to the requested key. -/
theorem c2_ci_get_amended (ops : List (String × String)) (k : String) :
    (CIOMD.build ops).getE k = ciGetSpec ops k ∧
    ((CIOMD.build ops).getE k = .error (.keyNotFound (strLower k)) ↔
      variantsOf ops (strLower k) = []) := by
  refine ⟨CIOMD.buildCI_getE ops k, ?_⟩
  rw [CIOMD.buildCI_getE ops k]
  constructor
  · intro h
    by_contra hv
    cases hl : (variantsOf ops (strLower k)).getLast? with
    | none => exact hv (List.getLast?_eq_none_iff.mp hl)
    | some kv =>
      have hkv : kv ∈ variantsOf ops (strLower k) := mem_of_getLast? hl
      have hkv2 : kv ∈ (ops.map Prod.fst).filter
          (fun k1 => strLower k1 == strLower k) := mem_dedupFirst hkv
      have hkv3 : kv ∈ ops.map Prod.fst := (List.mem_filter.mp hkv2).1
      obtain ⟨p, hp, hpk⟩ := List.mem_map.mp hkv3
      have hfil : p ∈ ops.filter (fun q => q.1 == kv) :=
        List.mem_filter.mpr ⟨hp, by simp [hpk]⟩
      have hne2 : (ops.filter (fun q => q.1 == kv)).map (·.2) ≠ [] := by
        intro hnil
        have hnil2 := List.map_eq_nil_iff.mp hnil
        rw [hnil2] at hfil
        cases hfil
      simp only [ciGetSpec, hl] at h
      cases hg : ((ops.filter (fun q => q.1 == kv)).map (·.2)).getLast? with
      | none => exact hne2 (List.getLast?_eq_none_iff.mp hg)
      | some v =>
        rw [hg] at h
        cases h
  · intro hv
    simp [ciGetSpec, hv]

theorem c2_witness :
    (CIOMD.build [("X-Foo", "1")]).getE "x-foo"
        = ciGetSpec [("X-Foo", "1")] "x-foo" ∧
      (CIOMD.build [("X-Foo", "1")]).getE "x-foo" = .ok "1" := by
  refine ⟨(c2_ci_get_amended [("X-Foo", "1")] "x-foo").1, ?_⟩
  exact ((c2_ci_get_amended [("X-Foo", "1")] "x-foo").1).trans rfl

/-- Header predicates used to count entries case-insensitively. -/
def ctPred : String × String → Bool := fun p => strLower p.1 == "content-type"

def scPred : String × String → Bool := fun p => strLower p.1 == "set-cookie"

def rspC3 : Response := { Response.make "x" 200 [] with cookies := [("n", "v")] }

/-- **C3 counterexample** — a `Response` holding one cookie, finalized twice:
the headers end up with two Set-Cookie entries for that one cookie (each
`finalize` appends one per cookie; only the Content-Type stamp is guarded),
refuting "exactly one Set-Cookie entry per cookie after two invocations". -/
theorem c3_counterexample :
    ((rspC3.finalize.finalize).headers.items.filter scPred).length = 2 ∧
      ¬ ((rspC3.finalize.finalize).headers.items.filter scPred).length = 1 := by
  constructor
  · rfl
  · intro h
    have h2 : ((rspC3.finalize.finalize).headers.items.filter scPred).length = 2 := rfl
    rw [h] at h2
    cases h2

/-- **C3 (amended)** — finalizing twice a `Response` whose initial headers
hold neither a content-type nor a set-cookie entry leaves exactly one
Content-Type entry (the stamp is guarded by a case-insensitive presence
check), but exactly two Set-Cookie entries per held cookie: each invocation
appends one Set-Cookie entry per cookie, unguarded. -/
theorem c3_finalize_amended (content : String) (code : Nat)
    (hs cookies : List (String × String))
    (hclean : ∀ p ∈ hs,
      ¬ strLower p.1 = "content-type" ∧ ¬ strLower p.1 = "set-cookie") :
    ((Response.finalize (Response.finalize
        ⟨content, code, CIOMD.build hs, cookies⟩)).headers.items.filter
        ctPred).length = 1 ∧
    ((Response.finalize (Response.finalize
        ⟨content, code, CIOMD.build hs, cookies⟩)).headers.items.filter
        scPred).length = 2 * cookies.length := by
  have hv1 : variantsOf (hs ++ cookies.map (fun c => ("Set-Cookie", cookieOutput c)))
      "content-type" = [] := by
    rw [variantsOf, dedupFirst_eq_nil_iff, List.filter_eq_nil_iff]
    intro k1 hk1
    rw [List.map_append, List.map_map] at hk1
    rcases List.mem_append.mp hk1 with hk | hk
    · obtain ⟨p, hp, hpk⟩ := List.mem_map.mp hk
      have hct := (hclean p hp).1
      subst hpk
      simp [hct]
    · obtain ⟨c, hc, hck⟩ := List.mem_map.mp hk
      rw [← hck]
      exact (by decide : ¬ ((strLower "Set-Cookie" == "content-type") = true))
  have hfin1 := Response.finalize_build content code hs cookies hv1
  have hv2 : variantsOf
      ((hs ++ cookies.map (fun c => ("Set-Cookie", cookieOutput c))
          ++ [("Content-Type", defaultContentType)])
        ++ cookies.map (fun c => ("Set-Cookie", cookieOutput c)))
      "content-type" ≠ [] := by
    intro hnil
    rw [variantsOf, dedupFirst_eq_nil_iff, List.filter_eq_nil_iff] at hnil
    have hmem : "Content-Type" ∈
        ((hs ++ cookies.map (fun c => ("Set-Cookie", cookieOutput c))
            ++ [("Content-Type", defaultContentType)])
          ++ cookies.map (fun c => ("Set-Cookie", cookieOutput c))).map Prod.fst := by
      simp
    exact hnil "Content-Type" hmem (by decide)
  have hfin2 := Response.finalize_build_ct content code
    (hs ++ cookies.map (fun c => ("Set-Cookie", cookieOutput c))
      ++ [("Content-Type", defaultContentType)]) cookies hv2
  rw [hfin1, hfin2]
  have hitems : (CIOMD.build
      ((hs ++ cookies.map (fun c => ("Set-Cookie", cookieOutput c))
          ++ [("Content-Type", defaultContentType)])
        ++ cookies.map (fun c => ("Set-Cookie", cookieOutput c)))).items
      = (hs ++ cookies.map (fun c => ("Set-Cookie", cookieOutput c))
          ++ [("Content-Type", defaultContentType)])
        ++ cookies.map (fun c => ("Set-Cookie", cookieOutput c)) :=
    CIOMD.buildCI_items _
  have hhs_ct : hs.filter ctPred = [] := by
    rw [List.filter_eq_nil_iff]
    intro p hp
    have := (hclean p hp).1
    simp [ctPred, this]
  have hhs_sc : hs.filter scPred = [] := by
    rw [List.filter_eq_nil_iff]
    intro p hp
    have := (hclean p hp).2
    simp [scPred, this]
  have hscs_ct : (cookies.map (fun c => ("Set-Cookie", cookieOutput c))).filter
      ctPred = [] := by
    rw [List.filter_eq_nil_iff]
    intro p hp
    obtain ⟨c, hc, hpc⟩ := List.mem_map.mp hp
    rw [← hpc]
    exact (by decide : ¬ ((strLower "Set-Cookie" == "content-type") = true))
  have hscs_sc : (cookies.map (fun c => ("Set-Cookie", cookieOutput c))).filter
      scPred = cookies.map (fun c => ("Set-Cookie", cookieOutput c)) := by
    rw [List.filter_eq_self]
    intro p hp
    obtain ⟨c, hc, hpc⟩ := List.mem_map.mp hp
    rw [← hpc]
    exact (by decide : (strLower "Set-Cookie" == "set-cookie") = true)
  have hct_ct : ([("Content-Type", defaultContentType)] :
      List (String × String)).filter ctPred = [("Content-Type", defaultContentType)] := rfl
  have hct_sc : ([("Content-Type", defaultContentType)] :
      List (String × String)).filter scPred = [] := rfl
  constructor
  · show ((CIOMD.build _).items.filter ctPred).length = 1
    rw [hitems]
    rw [List.filter_append, List.filter_append, List.filter_append,
      hhs_ct, hscs_ct, hct_ct]
    simp [hscs_ct]
  · show ((CIOMD.build _).items.filter scPred).length = 2 * cookies.length
    rw [hitems]
    rw [List.filter_append, List.filter_append, List.filter_append,
      hhs_sc, hscs_sc, hct_sc]
    simp [hscs_sc]
    omega

theorem c3_witness :
    ((Response.finalize (Response.finalize
        ⟨"c", 200, CIOMD.build [("X-Other", "y")], [("n", "v")]⟩)).headers.items.filter
        ctPred).length = 1 ∧
      ((Response.finalize (Response.finalize
        ⟨"c", 200, CIOMD.build [("X-Other", "y")], [("n", "v")]⟩)).headers.items.filter
        scPred).length = 2 * ([("n", "v")] : List (String × String)).length := by
  exact c3_finalize_amended "c" 200 [("X-Other", "y")] [("n", "v")] (by decide)

/-- **C10** — `popall` of an absent key: the base ordered multimap returns an
empty list and leaves the structure unchanged, while the case-insensitive
overlay raises `KeyError` (its `_casemap.pop` has no default), so the two
structures disagree on every absent key. -/
theorem c10_popall_disagreement (m : OMD) (c : CIOMD) (k : String)
    (hb : dictFind m.dict k = none)
    (hc : alFind c.casemap (strLower k) = none) :
    m.popall k = ([], m) ∧
    c.popallE k = .error (.keyNotFound (strLower k)) :=
  ⟨OMD.popall_absent m k hb, CIOMD.popallE_absent c k hc⟩

theorem c10_witness :
    (OMD.build [("a", "1")]).popall "b" = ([], OMD.build [("a", "1")]) ∧
      (CIOMD.build [("a", "1")]).popallE "b" = .error (.keyNotFound "b") := by
  have h := c10_popall_disagreement (OMD.build [("a", "1")])
    (CIOMD.build [("a", "1")]) "b" rfl rfl
  exact ⟨h.1, h.2⟩
